import Mathlib

/-!
Verification of core algorithms of the ai-town repository.

Shallow embedding conventions:
* JavaScript numbers are modelled as `ℚ` wherever the code only adds,
  subtracts, multiplies, divides and compares them (timestamps, tile
  coordinates), and as `ℝ` downstream of `Math.sqrt` (Euclidean distances,
  path costs).  Floating-point rounding is out of scope.
* JavaScript arrays used as growable 1-indexed stores are modelled as
  functions `ℕ → α` together with an explicit `endIndex`.
* Mutation is modelled by explicit state passing; exceptions by `Except`
  and `Option`.
-/

set_option maxHeartbeats 1000000

/-! ## convex/util/minheap.ts

`MinHeap(compare)` is a 1-indexed binary heap.  `tree[0]` holds a dummy
value (`null` in the source); `endIndex` points one past the last used
slot.  `write t i v` models the array store `tree[i] = v`. -/

/-- A JavaScript array store `tree[i] = v`. -/
def HeapWrite {α : Type*} (t : ℕ → α) (i : ℕ) (v : α) : ℕ → α :=
  fun j => if j = i then v else t j

/-- State of a `MinHeap`: backing array plus `endIndex` (1 for an empty heap). -/
structure MinHeap (α : Type*) where
  tree : ℕ → α
  endIndex : ℕ

namespace MinHeap

variable {α : Type*}

/-- The freshly constructed heap `MinHeap(compare)`: `tree = [null]`, `endIndex = 1`. -/
def empty [Inhabited α] : MinHeap α := ⟨fun _ => default, 1⟩

/-- Source `length`: `endIndex - 1`. -/
def length (h : MinHeap α) : ℕ := h.endIndex - 1

/-- Source `peek`: `tree[1]`, which is `undefined` when the heap is empty. -/
def peek (h : MinHeap α) : Option α :=
  if 1 < h.endIndex then some (h.tree 1) else none

/-- The bubble-up loop of `push`: walk ancestors of `destinationIndex`,
shifting each ancestor down until the comparator says the new value is
greater than the ancestor, then store the new value. -/
def pushLoop (gt : α → α → Bool) (newValue : α) (tree : ℕ → α)
    (destinationIndex : ℕ) : ℕ → α :=
  let nextToCheck := destinationIndex / 2
  if h : 0 < nextToCheck then
    let existing := tree nextToCheck
    if gt newValue existing then
      HeapWrite tree destinationIndex newValue
    else
      pushLoop gt newValue (HeapWrite tree destinationIndex existing) nextToCheck
  else
    HeapWrite tree destinationIndex newValue
termination_by destinationIndex
decreasing_by
  exact Nat.div_lt_self (Nat.lt_of_lt_of_le h (Nat.div_le_self _ _)) one_lt_two

/-- Source `push`: insert at `endIndex` and bubble up. -/
def push (gt : α → α → Bool) (h : MinHeap α) (newValue : α) : MinHeap α :=
  ⟨pushLoop gt newValue h.tree h.endIndex, h.endIndex + 1⟩

/-- The child selected by `pop`: `nextToCheck` is incremented to the right
child when that child exists and the left child is greater.  The source
compares against `tree[endIndex]` itself when `nextToCheck + 1 = endIndex`,
which is modelled faithfully here. -/
def popNext (gt : α → α → Bool) (tree : ℕ → α) (e n0 : ℕ) : ℕ :=
  if n0 + 1 ≤ e ∧ gt (tree n0) (tree (n0 + 1)) then n0 + 1 else n0

/-- The sift-down loop of `pop`: `e` is the decremented `endIndex`,
`lastValue` the former last slot being re-inserted at the root.  The
conjunct `0 < destinationIndex` in the guard only serves totality: the
loop is entered with `destinationIndex = 1` and indices only grow. -/
def popLoop (gt : α → α → Bool) (lastValue : α) (e : ℕ) (tree : ℕ → α)
    (destinationIndex : ℕ) : ℕ → α :=
  let n0 := 2 * destinationIndex
  if h : 0 < destinationIndex ∧ n0 < e then
    let nextToCheck := popNext gt tree e n0
    let existing := tree nextToCheck
    if gt existing lastValue then
      HeapWrite tree destinationIndex lastValue
    else
      popLoop gt lastValue e (HeapWrite tree destinationIndex existing) nextToCheck
  else
    HeapWrite tree destinationIndex lastValue
termination_by e - destinationIndex
decreasing_by
  have h2 : destinationIndex < popNext gt tree e (2 * destinationIndex) := by
    unfold popNext; split <;> omega
  simp only [popNext] at *
  omega

/-- Source `pop`: return `undefined` on the empty heap, else extract the
root, move the last element to the root and sift down. -/
def pop (gt : α → α → Bool) (h : MinHeap α) : Option α × MinHeap α :=
  if h.endIndex = 1 then (none, h)
  else
    let e := h.endIndex - 1
    let value := h.tree 1
    let lastValue := h.tree e
    (some value, ⟨popLoop gt lastValue e h.tree 1, e⟩)

/-- The multiset of values stored at indices `1 .. e` of `t`. -/
def msOf (t : ℕ → α) (e : ℕ) : Multiset α := ((List.range' 1 e).map t : List α)

/-- The elements currently held by the heap, as a multiset. -/
def contents (h : MinHeap α) : Multiset α := msOf h.tree (h.endIndex - 1)

/-- The multiset of values stored at indices `1 .. e` of `t` except index
`d` (used to reason about the loop's moving hole). -/
def msExcept (t : ℕ → α) (e d : ℕ) : Multiset α :=
  (((List.range' 1 (d - 1)).map t : List α) : Multiset α) +
    (((List.range' (d + 1) (e - d)).map t : List α) : Multiset α)

/-- Repeatedly pop until the heap is empty; `endIndex` is an upper bound on
the number of pops. -/
def drainGo (gt : α → α → Bool) : ℕ → MinHeap α → List α
  | 0, _ => []
  | n + 1, h =>
    match pop gt h with
    | (none, _) => []
    | (some v, h') => v :: drainGo gt n h'

/-- Pop every element of the heap in order. -/
def drain (gt : α → α → Bool) (h : MinHeap α) : List α := drainGo gt h.endIndex h

/-- The strictly-greater-than comparator `(a, b) => a > b` of a linear order. -/
def gtOf {β : Type*} [LinearOrder β] : β → β → Bool := fun a b => decide (b < a)

/-- The 1-indexed binary-heap ordering invariant on indices `[2, e)`. -/
def Inv [LinearOrder α] (t : ℕ → α) (e : ℕ) : Prop :=
  ∀ j, 2 ≤ j → j < e → t (j / 2) ≤ t j

end MinHeap

/-! ## convex/util/types.ts and convex/util/geometry.ts

Points, vectors and paths.  Coordinates and timestamps are modelled as `ℚ`;
Euclidean distances (downstream of `Math.sqrt`) as `ℝ`. -/

/-- A point `{x, y}`. -/
structure Point where
  x : ℚ
  y : ℚ
deriving DecidableEq

instance : Inhabited Point := ⟨⟨0, 0⟩⟩

/-- A vector `{dx, dy}`. -/
structure Vector where
  dx : ℚ
  dy : ℚ
deriving DecidableEq

instance : Inhabited Vector := ⟨⟨0, 0⟩⟩

/-- One entry of a `Path`: `{position, facing, t}`. -/
structure PathComponent where
  position : Point
  facing : Vector
  t : ℚ
deriving DecidableEq

instance : Inhabited PathComponent := ⟨⟨default, default, 0⟩⟩

/-- A path is an array of path components. -/
abbrev GamePath := List PathComponent

/-- Source `distance`: `Math.sqrt(dx * dx + dy * dy)`. -/
noncomputable def distance (p0 p1 : Point) : ℝ :=
  Real.sqrt (((p0.x - p1.x) * (p0.x - p1.x) + (p0.y - p1.y) * (p0.y - p1.y) : ℚ) : ℝ)

/-- Source `pointsEqual`: coordinatewise equality. -/
def pointsEqual (p0 p1 : Point) : Bool := p0.x == p1.x && p0.y == p1.y

/-- Source `manhattanDistance`. -/
def manhattanDistance (p0 p1 : Point) : ℚ := |p0.x - p1.x| + |p0.y - p1.y|

/-- Result of `pathPosition`: `{position, facing, velocity}`. -/
structure PathSample where
  position : Point
  facing : Vector
  velocity : ℝ

/-- The sample produced inside a segment `(a, b)` enclosing `time`: linear
interpolation of the position, the segment's starting facing, and the
segment's Euclidean length divided by its duration as the velocity. -/
noncomputable def segSample (a b : PathComponent) (time : ℚ) : PathSample :=
  let interp : ℚ := (time - a.t) / (b.t - a.t)
  { position := ⟨a.position.x + interp * (b.position.x - a.position.x),
                 a.position.y + interp * (b.position.y - a.position.y)⟩,
    facing := a.facing,
    velocity := distance a.position b.position / ((b.t - a.t : ℚ) : ℝ) }

/-- The segment-scanning loop of `pathPosition` (`for i in 0 .. path.length - 2`):
find the first adjacent pair whose timestamps enclose `time` and
interpolate inside it. -/
noncomputable def pathPositionSeg : GamePath → ℚ → Option PathSample
  | a :: b :: rest, time =>
    if a.t ≤ time ∧ time ≤ b.t then some (segSample a b time)
    else pathPositionSeg (b :: rest) time
  | _, _ => none

/-- Source `pathPosition`.  The source throws on a path of length `< 2` and
on falling through the (with valid input, exhaustive) segment scan; both are
modelled as `none`. -/
noncomputable def pathPosition (path : GamePath) (time : ℚ) : Option PathSample :=
  if path.length < 2 then none
  else
    let first := path.headD default
    if time < first.t then some ⟨first.position, first.facing, 0⟩
    else
      let last := path.getLastD default
      if last.t < time then some ⟨last.position, last.facing, 0⟩
      else pathPositionSeg path time

/-! ## Pathfinding: `findRoute` / `blocked` / `blockedWithPositions`
(src/unnamed/part_002, the repository's movement module). -/

/-- `COLLISION_THRESHOLD = 0.75` from convex/constants.ts, compared against
Euclidean distances. -/
noncomputable def COLLISION_THRESHOLD : ℝ := 0.75

/-- The map document: `width`, `height` and the object-occupancy layer
(`-1` = walkable). -/
structure GameMap where
  width : ℚ
  height : ℚ
  objectTiles : List (List ℤ)

/-- A `locations` row: position, orientation and velocity. -/
structure Location where
  x : ℚ
  y : ℚ
  dx : ℚ
  dy : ℚ
  velocity : ℚ

/-- A `players` row, reduced to the fields the pathfinder reads. -/
structure PlayerDoc where
  id : ℕ
  locationId : ℕ

/-- The slice of `AiTown` consulted by the pathfinder.  Modelled from the
spec: the `HistoricalTable` behind `game.locations` is not among the
provided sources, so, following the specification's description of
time-indexed player positions, `locationsAt t locId` is the record that
`game.locations.lookup(t, locId)` returns at time `t`. -/
structure AiTown where
  map : GameMap
  players : List PlayerDoc
  locationsAt : ℝ → ℕ → Location

/-- The reason strings returned by `blockedWithPositions`. -/
inductive BlockedReason where
  | outOfBounds
  | worldBlocked
  | player
deriving DecidableEq

/-- Source `blockedWithPositions`.  The NaN guard cannot fire over `ℚ` and
is dropped.  Out-of-range array indexing yields `undefined !== -1` in the
source, modelled by the default `0 ≠ -1`. -/
noncomputable def blockedWithPositions (position : Point) (otherPositions : List Point)
    (map : GameMap) : Option BlockedReason :=
  if position.x < 0 ∨ position.y < 0 ∨ map.width ≤ position.x ∨ map.height ≤ position.y then
    some .outOfBounds
  else if ((map.objectTiles.getD (Int.toNat ⌊position.y⌋) []).getD (Int.toNat ⌊position.x⌋) 0)
      ≠ -1 then
    some .worldBlocked
  else if otherPositions.any (fun other => decide (distance other position < COLLISION_THRESHOLD))
    then some .player
  else none

/-- Source `blocked`: collect all other players' positions at time `now`
and delegate to `blockedWithPositions`. -/
noncomputable def blocked (game : AiTown) (now : ℝ) (pos : Point) (playerId : Option ℕ) :
    Option BlockedReason :=
  blockedWithPositions pos
    ((game.players.filter (fun p => some p.id ≠ playerId)).map
      (fun p => let l := game.locationsAt now p.locationId; ⟨l.x, l.y⟩))
    game.map

/-- A `PathCandidate` of the A* search; `prev` links back towards the start. -/
inductive PathCandidate where
  | mk (position : Point) (facing : Option Vector) (t : ℝ) (length : ℝ) (cost : ℝ)
      (prev : Option PathCandidate)

namespace PathCandidate

def position : PathCandidate → Point | .mk p _ _ _ _ _ => p

def facing : PathCandidate → Option Vector | .mk _ f _ _ _ _ => f

def t : PathCandidate → ℝ | .mk _ _ t _ _ _ => t

def length : PathCandidate → ℝ | .mk _ _ _ l _ _ => l

def cost : PathCandidate → ℝ | .mk _ _ _ _ c _ => c

def prev : PathCandidate → Option PathCandidate | .mk _ _ _ _ _ p => p

end PathCandidate

instance : Inhabited PathCandidate := ⟨.mk default none 0 0 0 none⟩

/-- The comparator `(p0, p1) => p0.cost > p1.cost` passed to `MinHeap`. -/
noncomputable def candidateGt : PathCandidate → PathCandidate → Bool :=
  fun p0 p1 => decide (p1.cost < p0.cost)

/-- The neighbour positions generated by `explore`: off-grid coordinates
move to the two adjacent integer points on that axis, grid-aligned
positions to the four 4-connected neighbours. -/
def exploreNeighbors (current : PathCandidate) : List (Point × Vector) :=
  (if current.position.x ≠ ((⌊current.position.x⌋ : ℤ) : ℚ) then
    [(⟨((⌊current.position.x⌋ : ℤ) : ℚ), current.position.y⟩, ⟨-1, 0⟩),
     (⟨((⌊current.position.x⌋ : ℤ) : ℚ) + 1, current.position.y⟩, ⟨1, 0⟩)]
   else []) ++
  (if current.position.y ≠ ((⌊current.position.y⌋ : ℤ) : ℚ) then
    [(⟨current.position.x, ((⌊current.position.y⌋ : ℤ) : ℚ)⟩, ⟨0, -1⟩),
     (⟨current.position.x, ((⌊current.position.y⌋ : ℤ) : ℚ) + 1⟩, ⟨0, 1⟩)]
   else []) ++
  (if current.position.x = ((⌊current.position.x⌋ : ℤ) : ℚ) ∧
      current.position.y = ((⌊current.position.y⌋ : ℤ) : ℚ) then
    [(⟨current.position.x + 1, current.position.y⟩, ⟨1, 0⟩),
     (⟨current.position.x - 1, current.position.y⟩, ⟨-1, 0⟩),
     (⟨current.position.x, current.position.y + 1⟩, ⟨0, 1⟩),
     (⟨current.position.x, current.position.y - 1⟩, ⟨0, -1⟩)]
   else [])

/-- The body of `explore`'s neighbour loop, threading `minDistances` and the
`next` list.  The blocked test is evaluated at the query time `now`, exactly
as in the source. -/
noncomputable def exploreStep (game : AiTown) (now : ℝ) (player : PlayerDoc)
    (destination : Point) (movementSpeed : ℝ) (current : PathCandidate)
    (acc : (Point → Option PathCandidate) × List PathCandidate) (nb : Point × Vector) :
    (Point → Option PathCandidate) × List PathCandidate :=
  let minDistances := acc.1
  let next := acc.2
  let position := nb.1
  let segmentLength := distance current.position position
  let length := current.length + segmentLength
  if (blocked game now position (some player.id)).isSome then acc
  else
    let remaining := manhattanDistance position destination
    let path : PathCandidate := .mk position (some nb.2)
      (current.t + (segmentLength / movementSpeed) * 1000) length (length + (remaining : ℝ))
      (some current)
    match minDistances position with
    | some existingMin =>
      if decide (existingMin.cost ≤ path.cost) then acc
      else ((fun p => if p = position then some path else minDistances p), next ++ [path])
    | none => ((fun p => if p = position then some path else minDistances p), next ++ [path])

/-- Source `explore`: fold the neighbour loop over the generated neighbours. -/
noncomputable def explore (game : AiTown) (now : ℝ) (player : PlayerDoc) (destination : Point)
    (movementSpeed : ℝ) (current : PathCandidate) (minDistances : Point → Option PathCandidate) :
    (Point → Option PathCandidate) × List PathCandidate :=
  (exploreNeighbors current).foldl (exploreStep game now player destination movementSpeed current)
    (minDistances, [])

/-- How `findRoute`'s main loop ended: destination reached, or open set
exhausted with `best` the best candidate seen. -/
inductive LoopOutcome where
  | reached (c : PathCandidate)
  | exhausted (best : PathCandidate)

/-- The `while (current)` loop of `findRoute`, with an explicit fuel bound
(the source loop terminates because the candidate grid is finite) and, as a
ghost second component, the list of candidates dequeued and examined. -/
noncomputable def searchLoop (game : AiTown) (now : ℝ) (player : PlayerDoc)
    (destination : Point) (movementSpeed : ℝ) :
    ℕ → PathCandidate → PathCandidate → (Point → Option PathCandidate) →
    MinHeap PathCandidate → Option (LoopOutcome × List PathCandidate)
  | 0, _, _, _, _ => none
  | fuel + 1, current, bestCandidate, minDistances, minheap =>
    if pointsEqual current.position destination then some (.reached current, [])
    else
      let best :=
        if manhattanDistance current.position destination <
            manhattanDistance bestCandidate.position destination then current else bestCandidate
      let explored := explore game now player destination movementSpeed current minDistances
      let heap := explored.2.foldl (MinHeap.push candidateGt) minheap
      match MinHeap.pop candidateGt heap with
      | (none, _) => some (.exhausted best, [current])
      | (some c, heap') =>
        (searchLoop game now player destination movementSpeed fuel c best explored.1 heap').map
          (fun r => (r.1, current :: r.2))

/-- One entry of the returned dense path. -/
structure PathEntry where
  position : Point
  t : ℝ
  facing : Vector

/-- The chain walk building the dense path (before the final `reverse`):
each node is recorded with the facing of the node that follows it. -/
def densePathAux : PathCandidate → Vector → List PathEntry
  | .mk pos f t _ _ prevOpt, facing =>
    ⟨pos, t, facing⟩ ::
      (match prevOpt with
       | none => []
       | some p => densePathAux p (f.getD default))

/-- The dense path returned by `findRoute` for a final candidate `c`. -/
def densePath (c : PathCandidate) : List PathEntry :=
  (densePathAux c (c.facing.getD default)).reverse

/-- The value returned by `findRoute`: the dense path plus the replacement
destination when the requested one was unreachable. -/
structure RouteResult where
  path : List PathEntry
  newDestination : Option Point

/-- Source `findRoute`, with fuel for the search loop and the ghost trace of
examined candidates.  `movementSpeed` is imported from `data/characters` in
the source (not among the provided files) and is threaded as a parameter.
Returns `none` on fuel exhaustion; otherwise `some (result, outcome, trace)`
where `result` is the source's return value (`none` for the source's
`null`). -/
noncomputable def findRouteFuelTr (movementSpeed : ℝ) (fuel : ℕ) (game : AiTown) (now : ℝ)
    (player : PlayerDoc) (destination : Point) :
    Option (Option RouteResult × LoopOutcome × List PathCandidate) :=
  let startingLocation := game.locationsAt now player.locationId
  let startingPosition : Point := ⟨startingLocation.x, startingLocation.y⟩
  let start : PathCandidate := .mk startingPosition
    (some ⟨startingLocation.dx, startingLocation.dy⟩) now 0
    ((manhattanDistance startingPosition destination : ℚ) : ℝ) none
  (searchLoop game now player destination movementSpeed fuel start start (fun _ => none)
      MinHeap.empty).map
    (fun r =>
      match r.1 with
      | .reached c => (some ⟨densePath c, none⟩, r.1, r.2)
      | .exhausted best =>
        if best.length = (0 : ℝ) then (none, r.1, r.2)
        else (some ⟨densePath best, some best.position⟩, r.1, r.2))

/-- Source `findRoute` without the ghost trace. -/
noncomputable def findRouteFuel (movementSpeed : ℝ) (fuel : ℕ) (game : AiTown) (now : ℝ)
    (player : PlayerDoc) (destination : Point) : Option (Option RouteResult) :=
  (findRouteFuelTr movementSpeed fuel game now player destination).map (fun r => r.1)

/-! ### Specification variant of the pathfinder (for the refinement claim)

The specification states that the player-collision part of the blocked test
is evaluated at the candidate segment's scheduled arrival time.  The
following definitions follow the specification's words; they differ from
the source embedding above only in the time at which `blocked` is
evaluated. -/

/-- Specification-described neighbour step: identical to `exploreStep`
except that `blocked` is evaluated at the candidate's scheduled arrival
time `current.t + (segmentLength / movementSpeed) * 1000`. -/
noncomputable def exploreStepArrival (game : AiTown) (player : PlayerDoc)
    (destination : Point) (movementSpeed : ℝ) (current : PathCandidate)
    (acc : (Point → Option PathCandidate) × List PathCandidate) (nb : Point × Vector) :
    (Point → Option PathCandidate) × List PathCandidate :=
  let minDistances := acc.1
  let next := acc.2
  let position := nb.1
  let segmentLength := distance current.position position
  let length := current.length + segmentLength
  let arrivalT := current.t + (segmentLength / movementSpeed) * 1000
  if (blocked game arrivalT position (some player.id)).isSome then acc
  else
    let remaining := manhattanDistance position destination
    let path : PathCandidate := .mk position (some nb.2) arrivalT length
      (length + (remaining : ℝ)) (some current)
    match minDistances position with
    | some existingMin =>
      if decide (existingMin.cost ≤ path.cost) then acc
      else ((fun p => if p = position then some path else minDistances p), next ++ [path])
    | none => ((fun p => if p = position then some path else minDistances p), next ++ [path])

/-- Specification-described `explore`. -/
noncomputable def exploreArrival (game : AiTown) (player : PlayerDoc) (destination : Point)
    (movementSpeed : ℝ) (current : PathCandidate) (minDistances : Point → Option PathCandidate) :
    (Point → Option PathCandidate) × List PathCandidate :=
  (exploreNeighbors current).foldl (exploreStepArrival game player destination movementSpeed
    current) (minDistances, [])

/-- Specification-described search loop (collision test at arrival time). -/
noncomputable def searchLoopArrival (game : AiTown) (player : PlayerDoc)
    (destination : Point) (movementSpeed : ℝ) :
    ℕ → PathCandidate → PathCandidate → (Point → Option PathCandidate) →
    MinHeap PathCandidate → Option LoopOutcome
  | 0, _, _, _, _ => none
  | fuel + 1, current, bestCandidate, minDistances, minheap =>
    if pointsEqual current.position destination then some (.reached current)
    else
      let best :=
        if manhattanDistance current.position destination <
            manhattanDistance bestCandidate.position destination then current else bestCandidate
      let explored := exploreArrival game player destination movementSpeed current minDistances
      let heap := explored.2.foldl (MinHeap.push candidateGt) minheap
      match MinHeap.pop candidateGt heap with
      | (none, _) => some (.exhausted best)
      | (some c, heap') =>
        searchLoopArrival game player destination movementSpeed fuel c best explored.1 heap'

/-- Specification-described `findRoute`: the collision part of the blocked
test evaluated at each candidate's scheduled arrival time. -/
noncomputable def findRouteArrivalFuel (movementSpeed : ℝ) (fuel : ℕ) (game : AiTown)
    (now : ℝ) (player : PlayerDoc) (destination : Point) : Option (Option RouteResult) :=
  let startingLocation := game.locationsAt now player.locationId
  let startingPosition : Point := ⟨startingLocation.x, startingLocation.y⟩
  let start : PathCandidate := .mk startingPosition
    (some ⟨startingLocation.dx, startingLocation.dy⟩) now 0
    ((manhattanDistance startingPosition destination : ℚ) : ℝ) none
  (searchLoopArrival game player destination movementSpeed fuel start start (fun _ => none)
      MinHeap.empty).map
    (fun outcome =>
      match outcome with
      | .reached c => some ⟨densePath c, none⟩
      | .exhausted best =>
        if best.length = (0 : ℝ) then none
        else some ⟨densePath best, some best.position⟩)

/-! ## src/hooks/sendInput.ts: `HistoricalTimeManager`

Timestamps are `ℚ`; the manager state carries the interval list and the
previous client/server timestamps.  `receive` may throw (out-of-order
status), modelled with `Except`.  `historicalServerTime` returns the
computed server timestamp together with the updated manager state. -/

/-- A server time interval `{startTs, endTs}`. -/
structure ServerTimeInterval where
  startTs : ℚ
  endTs : ℚ
deriving DecidableEq

instance : Inhabited ServerTimeInterval := ⟨⟨0, 0⟩⟩

/-- The engine status fields consulted by the manager. -/
structure EngineStatus where
  currentTime : Option ℚ
  lastStepTs : Option ℚ
deriving DecidableEq

/-- State of `HistoricalTimeManager` (the unused `latestEngineStatus` field
is dropped). -/
structure HistoricalTimeManager where
  intervals : List ServerTimeInterval
  prevClientTs : Option ℚ
  prevServerTs : Option ℚ
  totalDuration : ℚ
deriving DecidableEq

/-- `MAX_SERVER_BUFFER_AGE = 1250`. -/
def MAX_SERVER_BUFFER_AGE : ℚ := 1250

/-- `SOFT_MAX_SERVER_BUFFER_AGE = 1000`. -/
def SOFT_MAX_SERVER_BUFFER_AGE : ℚ := 1000

/-- `SOFT_MIN_SERVER_BUFFER_AGE = 100`. -/
def SOFT_MIN_SERVER_BUFFER_AGE : ℚ := 100

namespace HistoricalTimeManager

/-- Source `receive`.  `!engineStatus.currentTime` and
`!engineStatus.lastStepTs` are JavaScript truthiness tests: they hold both
for a missing field and for the value `0`, so both cases return the state
unchanged. -/
def receive (m : HistoricalTimeManager) (engineStatus : EngineStatus) :
    Except String HistoricalTimeManager :=
  match engineStatus.currentTime, engineStatus.lastStepTs with
  | some currentTime, some lastStepTs =>
    if currentTime = 0 ∨ lastStepTs = 0 then .ok m
    else
      match m.intervals.getLast? with
      | some latest =>
        if latest.endTs = currentTime then .ok m
        else if currentTime < latest.endTs then .error "Received out-of-order engine status"
        else .ok { m with intervals := m.intervals ++ [⟨lastStepTs, currentTime⟩],
                          totalDuration := m.totalDuration + (currentTime - lastStepTs) }
      | none => .ok { m with intervals := m.intervals ++ [⟨lastStepTs, currentTime⟩],
                             totalDuration := m.totalDuration + (currentTime - lastStepTs) }
  | _, _ => .ok m

/-- The interval-selection loop of `historicalServerTime`: walk the interval
list with index `i`, carrying the running `serverTs` and the `chosen` index.
The source's final `if (serverTs < snapshot.startTs)` has no `break`, so a
snap forward does not stop the scan; the redundant guard is kept as
written. -/
def chooseLoop : List ServerTimeInterval → ℕ → ℚ → Option ℕ → ℚ × Option ℕ
  | [], _, serverTs, chosen => (serverTs, chosen)
  | snapshot :: rest, i, serverTs, chosen =>
    if snapshot.endTs < serverTs then chooseLoop rest (i + 1) serverTs chosen
    else if snapshot.startTs ≤ serverTs then (serverTs, some i)
    else if serverTs < snapshot.startTs then chooseLoop rest (i + 1) snapshot.startTs (some i)
    else chooseLoop rest (i + 1) serverTs chosen

/-- Source `historicalServerTime`: rate-controlled playback of the received
server intervals against the client clock. -/
def historicalServerTime (m : HistoricalTimeManager) (clientNow : ℚ) :
    Option ℚ × HistoricalTimeManager :=
  match m.intervals with
  | [] => (none, m)
  | first :: _ =>
    if some clientNow = m.prevClientTs then (m.prevServerTs, m)
    else
      let prevClientTs := m.prevClientTs.getD clientNow
      let prevServerTs := m.prevServerTs.getD first.startTs
      let lastServerTs := (m.intervals.getLastD default).endTs
      let bufferDuration := lastServerTs - prevServerTs
      let rate : ℚ :=
        if bufferDuration < SOFT_MIN_SERVER_BUFFER_AGE then 0.8
        else if SOFT_MAX_SERVER_BUFFER_AGE < bufferDuration then 1.2
        else 1
      let serverTs0 := max (prevServerTs + (clientNow - prevClientTs) * rate)
                           (lastServerTs - MAX_SERVER_BUFFER_AGE)
      let scanned := chooseLoop m.intervals 0 serverTs0 none
      let serverTs := match scanned.2 with
        | none => lastServerTs
        | some _ => scanned.1
      let chosen : ℕ := match scanned.2 with
        | none => m.intervals.length - 1
        | some c => c
      let toTrim := chosen - 1
      let m' :=
        if 0 < toTrim then
          { m with intervals := m.intervals.drop toTrim,
                   totalDuration := m.totalDuration -
                     (((m.intervals.take toTrim).map (fun s => s.endTs - s.startTs)).sum) }
        else m
      (some serverTs, { m' with prevClientTs := some clientNow, prevServerTs := some serverTs })

/-- Source `bufferHealth`. -/
def bufferHealth (m : HistoricalTimeManager) : ℚ :=
  match m.intervals with
  | [] => 0
  | first :: _ =>
    (m.intervals.getLastD default).endTs - (m.prevServerTs.getD first.startTs)

end HistoricalTimeManager

/-! ## convex/util/openai.ts

`retryWithBackoff` and the streaming stop-word truncation of
`ChatCompletionContent.read`.  Strings are modelled as `List Char`; the
attempts of the retried operation as a function from the attempt index to
its outcome (the timing side effects of the backoff sleeps are irrelevant
to the claims). -/

/-- `RETRY_BACKOFF = [1000, 10_000, 20_000]`. -/
def RETRY_BACKOFF : List ℕ := [1000, 10000, 20000]

/-- Outcome of one invocation of the operation wrapped by
`retryWithBackoff`: success, or a thrown `{retry, error}` pair. -/
inductive AttemptResult (ε α : Type) where
  | ok (value : α)
  | err (retry : Bool) (error : ε)
deriving DecidableEq

/-- The `for (; i <= RETRY_BACKOFF.length; i++)` loop of `retryWithBackoff`
from iteration `i` on: invoke, return `{result, retries: i}` on success,
retry while `i < RETRY_BACKOFF.length` and the failure is marked
retriable, otherwise rethrow the failure's error. -/
def retryFrom {ε α : Type} (fn : ℕ → AttemptResult ε α) (i : ℕ) : Except ε (α × ℕ) :=
  match fn i with
  | .ok v => .ok (v, i)
  | .err retry e =>
    if i < RETRY_BACKOFF.length ∧ retry = true then retryFrom fn (i + 1)
    else .error e
termination_by RETRY_BACKOFF.length - i
decreasing_by omega

/-- Source `retryWithBackoff`: run the loop from `i = 0`. -/
def retryWithBackoff {ε α : Type} (fn : ℕ → AttemptResult ε α) : Except ε (α × ℕ) :=
  retryFrom fn 0

/-- The retriable-failure marker set by `chatCompletion` (and the other
fetchers): `result.status === 429 || result.status >= 500`. -/
def chatCompletionRetry (status : ℕ) : Bool :=
  status == 429 || decide (500 ≤ status)

/-- Source `suffixOverlapsPrefix` (the `Fn` suffix is only a Lean naming
artefact): does some non-empty suffix of `s1` equal a prefix of `s2`? -/
def suffixOverlapsPrefixFn (s1 s2 : List Char) : Bool :=
  (List.range' 1 (min s1.length s2.length)).any
    (fun i => decide (s1.drop (s1.length - i) = s2.take i))

/-- JavaScript `l.indexOf(w)` for strings as lists: index of the first
occurrence of `w` as a contiguous substring of `l` (`none` for `-1`). -/
def indexOfSub (l w : List Char) : Option ℕ :=
  if w.isPrefixOf l then some 0
  else
    match l with
    | [] => none
    | _ :: rest => (indexOfSub rest w).map (· + 1)

/-- The stop-word scan of `read`: the first stop word, in list order, that
occurs in the fragment, together with its occurrence index. -/
def findStopIdx (stopWords : List (List Char)) (lf : List Char) : Option ℕ :=
  match stopWords with
  | [] => none
  | w :: rest =>
    match indexOfSub lf w with
    | some i => some i
    | none => findStopIdx rest lf

/-- The `hasOverlap` flag of `read`: some stop word's prefix matches a
suffix of the fragment. -/
def hasOverlapB (stopWords : List (List Char)) (lf : List Char) : Bool :=
  stopWords.any (fun w => suffixOverlapsPrefixFn lf w)

/-- The `for await` loop of `ChatCompletionContent.read`, over the decoded
content chunks produced by `readInner`: accumulate chunks in
`lastFragment`, truncate and stop at a stop-word occurrence, hold the
fragment back while it overlaps a stop-word prefix, and flush the held
fragment when the stream ends. -/
def readLoop (stopWords : List (List Char)) :
    List (List Char) → List Char → List (List Char)
  | [], lastFragment => [lastFragment]
  | data :: rest, lastFragment =>
    let lf := lastFragment ++ data
    match findStopIdx stopWords lf with
    | some idx => [lf.take idx]
    | none =>
      if hasOverlapB stopWords lf then readLoop stopWords rest lf
      else lf :: readLoop stopWords rest []

/-- Source `ChatCompletionContent.read` as a function from the decoded
chunk stream to the list of yielded chunks. -/
def readChunks (stopWords : List (List Char)) (chunks : List (List Char)) : List (List Char) :=
  readLoop stopWords chunks []

/-- The position of the first occurrence of any stop word in `content`
(formalising the specification's truncation point). -/
def firstStopIdx (content : List Char) (stopWords : List (List Char)) : Option ℕ :=
  stopWords.foldr
    (fun w acc =>
      match indexOfSub content w, acc with
      | some i, some j => some (min i j)
      | some i, none => some i
      | none, acc2 => acc2)
    none

/-- The specification's described output: the content truncated immediately
before the first occurrence of any stop word, or the whole content when no
stop word occurs. -/
def truncAtFirstStop (content : List Char) (stopWords : List (List Char)) : List Char :=
  match firstStopIdx content stopWords with
  | some i => content.take i
  | none => content

/-! ## convex/engine/gameTable.ts (in crons.ts source bundle): `GameTable`

Ids are `ℕ`; the cache `data` is a partial map; `modified` and `deleted`
are finite sets.  `lookup` returns a proxy in the source whose `set`,
`defineProperty` and `deleteProperty` handlers (also on nested objects)
call `markModified` before performing the write; a write through the
handle is modelled by `writeThrough`, which applies `markModified` and
then updates the cached row in place. -/

/-- The two failures of `GameTable.lookup`. -/
inductive LookupError where
  | invalidId
  | inactiveId
deriving DecidableEq

/-- State of a `GameTable`. -/
structure GameTable (δ : Type) where
  data : ℕ → Option δ
  modified : Finset ℕ
  deleted : Finset ℕ

namespace GameTable

variable {δ : Type}

/-- The failure/success part of source `lookup`: `Invalid ID` when the id
is not cached, `ID is inactive` when the cached row fails `isActive`. -/
def lookup (isActive : δ → Bool) (s : GameTable δ) (id : ℕ) : Except LookupError δ :=
  match s.data id with
  | none => .error .invalidId
  | some row => if isActive row then .ok row else .error .inactiveId

/-- Source `markModified`: warn and skip for a deleted or inactive id, else
add the id to `modified`. -/
def markModified (isActive : δ → Bool) (s : GameTable δ) (id : ℕ) : GameTable δ :=
  match s.data id with
  | none => s
  | some row => if isActive row then { s with modified := insert id s.modified } else s

/-- A write through the proxy returned by `lookup`: the handler calls
`markModified` and then performs the write on the cached row (`f` is the
effect of the `set`/`defineProperty`/`deleteProperty` on the row value).
When the row is no longer cached the write only hits a detached object and
the table state is unchanged. -/
def writeThrough (isActive : δ → Bool) (s : GameTable δ) (id : ℕ) (f : δ → δ) : GameTable δ :=
  let s1 := markModified isActive s id
  match s1.data id with
  | some row => { s1 with data := fun j => if j = id then some (f row) else s1.data j }
  | none => s1

/-- Source `delete`: remove from the cache, and mark for store deletion
only when the id was actually cached. -/
def deleteRow (s : GameTable δ) (id : ℕ) : GameTable δ :=
  match s.data id with
  | some _ =>
    { s with data := fun j => if j = id then none else s.data j,
             deleted := insert id s.deleted }
  | none => s

/-- The store operations issued by one `save()`. -/
structure SaveOps where
  storeDeletes : Finset ℕ
  storeReplaces : Finset ℕ
deriving DecidableEq

/-- Source `save`: issue a store delete for every id in `deleted` and a
store replace for every id in `modified`, then clear both sets. -/
def save (s : GameTable δ) : SaveOps × GameTable δ :=
  (⟨s.deleted, s.modified⟩, { s with modified := ∅, deleted := ∅ })

end GameTable

/-! ## Concrete instances used by witnesses and counterexamples -/

/-- Interval list with gaps, with a previously played-back state: the
failing input of the monotonicity claim for `historicalServerTime`. -/
def c2Manager : HistoricalTimeManager :=
  ⟨[⟨0, 10⟩, ⟨20, 30⟩, ⟨100, 110⟩], some 0, some 0, 30⟩

/-- A one-interval manager state. -/
def c7Manager : HistoricalTimeManager := ⟨[⟨1, 3⟩], none, none, 2⟩

/-- An attempt sequence that fails retriably twice and then succeeds. -/
def fn8C : ℕ → AttemptResult Unit ℕ := fun i => if i < 2 then .err true () else .ok 42

/-- A one-row table over `Bool` rows (with `isActive = id`). -/
def c9State : GameTable Bool := ⟨fun j => if j = 5 then some true else none, ∅, ∅⟩

/-- A one-row table over `Bool` rows. -/
def c10State : GameTable Bool := ⟨fun j => if j = 5 then some true else none, ∅, ∅⟩

/-- Concrete two-point path for the C6 witness. -/
def c6Path : GamePath := [⟨⟨0, 0⟩, ⟨1, 0⟩, 0⟩, ⟨⟨1, 0⟩, ⟨1, 0⟩, 1000⟩]

/-- A 1×1 map whose single tile is walkable, for the C5 witness. -/
def c5Map : GameMap := ⟨1, 1, [[-1]]⟩

/-- A game with no players on the 1×1 map; every location row is the
origin at rest. -/
def c5Game : AiTown := ⟨c5Map, [], fun _ _ => ⟨0, 0, 0, 0, 0⟩⟩

/-- The player document used in the C5 witness. -/
def c5Player : PlayerDoc := ⟨0, 0⟩

/-- The start candidate `findRouteFuelTr` builds in the C5 witness. -/
noncomputable def c5Start : PathCandidate :=
  .mk ⟨0, 0⟩ (some ⟨0, 0⟩) 0 0 ((manhattanDistance ⟨0, 0⟩ ⟨2, 0⟩ : ℚ) : ℝ) none

/-- A 2×1 map with both tiles walkable, for the C1 counterexample. -/
def c1Map : GameMap := ⟨2, 1, [[-1, -1]]⟩

/-- The moving player of the C1 counterexample. -/
def c1Player : PlayerDoc := ⟨0, 0⟩

/-- C1 game: a second player (id `1`) sits at `(1, 0)` at query time `0`
and at `(0, 1)` at every other time; the moving player starts at the
origin. -/
noncomputable def c1Game : AiTown :=
  ⟨c1Map, [⟨0, 0⟩, ⟨1, 1⟩], fun t locId =>
    if locId = 1 then (if t = 0 then ⟨1, 0, 0, 0, 0⟩ else ⟨0, 1, 0, 0, 0⟩)
    else ⟨0, 0, 0, 0, 0⟩⟩

/-- The C1 game with every location row frozen at its query-time value. -/
def c1GameConst : AiTown :=
  ⟨c1Map, [⟨0, 0⟩, ⟨1, 1⟩], fun _ locId =>
    if locId = 1 then ⟨1, 0, 0, 0, 0⟩ else ⟨0, 0, 0, 0, 0⟩⟩

/-- The start candidate `findRouteFuelTr` builds in the C1 counterexample. -/
noncomputable def c1Start : PathCandidate :=
  .mk ⟨0, 0⟩ (some ⟨0, 0⟩) 0 0 ((manhattanDistance ⟨0, 0⟩ ⟨1, 0⟩ : ℚ) : ℝ) none

/-- The candidate the arrival-time pathfinder builds for the step onto
`(1, 0)` in the C1 counterexample. -/
noncomputable def c1Cand : PathCandidate :=
  .mk ⟨1, 0⟩ (some ⟨1, 0⟩) 1000 1 1 (some c1Start)

/-! ## Theorems -/

/-! ### C10: `GameTable.delete` on an uncached id is a no-op -/

/-- C10: `GameTable.delete(id)` for an id not present in the cache leaves
the table state unchanged — the id is not added to the deleted set — and
`save()` issues store deletes exactly for the `deleted` set, so no store
delete is ever issued for an id that was not cached at deletion time. -/
theorem c10_delete_frame {δ : Type} (s : GameTable δ) (id : ℕ) :
    (s.data id = none → GameTable.deleteRow s id = s) ∧
    ((GameTable.save s).1.storeDeletes = s.deleted) ∧
    (s.data id = none → id ∉ s.deleted →
      id ∉ (GameTable.save (GameTable.deleteRow s id)).1.storeDeletes) := by
  refine ⟨fun h => ?_, rfl, fun h hmem => ?_⟩
  · unfold GameTable.deleteRow
    rw [h]
  · unfold GameTable.deleteRow GameTable.save
    rw [h]
    exact hmem

/-- Witness for C10 at a concrete table: id `7` is not cached, so deleting
it changes nothing and `save` issues no store delete for it. -/
theorem c10_witness :
    GameTable.deleteRow c10State 7 = c10State ∧
    (7 : ℕ) ∉ (GameTable.save (GameTable.deleteRow c10State 7)).1.storeDeletes := by
  have h := c10_delete_frame c10State 7
  exact ⟨h.1 (by decide), h.2.2 (by decide) (by decide)⟩

/-! ### C9: `GameTable.lookup` failures and write-observing views -/

/-- C9: `lookup(id)` fails exactly when the id is absent from the cache or
the cached row is inactive, and any successful write through the handle a
successful `lookup` returns (modelled by `writeThrough`) leaves the id a
member of the `modified` set — silent mutation through a lookup handle is
impossible. -/
theorem c9_lookup_write_observing {δ : Type} (isActive : δ → Bool) (s : GameTable δ)
    (id : ℕ) (f : δ → δ) :
    (GameTable.lookup isActive s id = .error .invalidId ↔ s.data id = none) ∧
    (GameTable.lookup isActive s id = .error .inactiveId ↔
      ∃ row, s.data id = some row ∧ isActive row = false) ∧
    (∀ row, GameTable.lookup isActive s id = .ok row →
      s.data id = some row ∧ isActive row = true) ∧
    ((∃ row, GameTable.lookup isActive s id = .ok row) →
      id ∈ (GameTable.writeThrough isActive s id f).modified) := by
  rcases hdata : s.data id with _ | row
  · refine ⟨by simp [GameTable.lookup, hdata], by simp [GameTable.lookup, hdata],
      by simp [GameTable.lookup, hdata], ?_⟩
    rintro ⟨row, hrow⟩
    simp [GameTable.lookup, hdata] at hrow
  · rcases hact : isActive row with _ | _
    · refine ⟨by simp [GameTable.lookup, hdata, hact], ?_, ?_, ?_⟩
      · simp only [GameTable.lookup, hdata, hact, Bool.false_eq_true, if_false]
        constructor
        · intro _
          exact ⟨row, rfl, hact⟩
        · intro _
          trivial
      · intro row2 hrow2
        simp [GameTable.lookup, hdata, hact] at hrow2
      · rintro ⟨row2, hrow2⟩
        simp [GameTable.lookup, hdata, hact] at hrow2
    · refine ⟨by simp [GameTable.lookup, hdata, hact], by simp [GameTable.lookup, hdata, hact],
        by simp [GameTable.lookup, hdata, hact], ?_⟩
      intro _
      simp only [GameTable.writeThrough, GameTable.markModified, hdata, hact, if_true]
      rcases h2 : s.data id with _ | _
      · rw [hdata] at h2
        cases h2
      · simp [Finset.mem_insert]

/-- Witness for C9: on a concrete table, looking up the active row `5`
succeeds, and a write through the returned handle marks `5` modified. -/
theorem c9_witness :
    (5 : ℕ) ∈ (GameTable.writeThrough (fun b => b) c9State 5 (fun _ => false)).modified := by
  have h := c9_lookup_write_observing (fun b => b) c9State 5 (fun _ => false)
  exact h.2.2.2 ⟨true, rfl⟩

/-! ### C8: `retryWithBackoff` -/

/-- One unfolding of the retry loop. -/
theorem retryFrom_unfold {ε α : Type} (fn : ℕ → AttemptResult ε α) (i : ℕ) :
    retryFrom fn i =
      match fn i with
      | .ok v => .ok (v, i)
      | .err retry e =>
        if i < RETRY_BACKOFF.length ∧ retry = true then retryFrom fn (i + 1)
        else .error e := by
  rw [retryFrom]

/-- Helper: characterisation of successful runs of the retry loop. -/
theorem retryFrom_ok_char {ε α : Type} (fn : ℕ → AttemptResult ε α) :
    ∀ k i, RETRY_BACKOFF.length - i < k → i ≤ RETRY_BACKOFF.length → ∀ v r,
      retryFrom fn i = .ok (v, r) →
      i ≤ r ∧ r ≤ RETRY_BACKOFF.length ∧ fn r = .ok v ∧
        ∀ j, i ≤ j → j < r → ∃ e, fn j = .err true e := by
  intro k
  induction k with
  | zero => intro i hk; omega
  | succ k ih =>
    intro i hk hi v r heq
    rw [retryFrom_unfold] at heq
    rcases hfn : fn i with v0 | ⟨b, e⟩
    · rw [hfn] at heq
      simp only [Except.ok.injEq, Prod.mk.injEq] at heq
      obtain ⟨hv, hr⟩ := heq
      subst hv hr
      exact ⟨le_rfl, hi, hfn, fun j h1 h2 => absurd h2 (by omega)⟩
    · rw [hfn] at heq
      replace heq : (if i < RETRY_BACKOFF.length ∧ b = true then retryFrom fn (i + 1)
          else Except.error e) = Except.ok (v, r) := heq
      by_cases hcond : i < RETRY_BACKOFF.length ∧ b = true
      · rw [if_pos hcond] at heq
        obtain ⟨h1, h2, h3, h4⟩ := ih (i + 1) (by omega) (by omega) v r heq
        refine ⟨by omega, h2, h3, fun j hj1 hj2 => ?_⟩
        rcases eq_or_lt_of_le hj1 with hji | hji
        · exact ⟨e, by rw [← hji, hfn, hcond.2]⟩
        · exact h4 j (by omega) hj2
      · rw [if_neg hcond] at heq
        cases heq

/-- Helper: characterisation of failing runs of the retry loop. -/
theorem retryFrom_error_char {ε α : Type} (fn : ℕ → AttemptResult ε α) :
    ∀ k i, RETRY_BACKOFF.length - i < k → i ≤ RETRY_BACKOFF.length → ∀ e,
      retryFrom fn i = .error e →
      ∃ j, i ≤ j ∧ j ≤ RETRY_BACKOFF.length ∧
        (∃ b, fn j = .err b e ∧ (b = false ∨ j = RETRY_BACKOFF.length)) ∧
        ∀ l, i ≤ l → l < j → ∃ e2, fn l = .err true e2 := by
  intro k
  induction k with
  | zero => intro i hk; omega
  | succ k ih =>
    intro i hk hi e heq
    rw [retryFrom_unfold] at heq
    rcases hfn : fn i with v0 | ⟨b, e0⟩
    · rw [hfn] at heq; cases heq
    · rw [hfn] at heq
      replace heq : (if i < RETRY_BACKOFF.length ∧ b = true then retryFrom fn (i + 1)
          else Except.error e0) = Except.error e := heq
      by_cases hcond : i < RETRY_BACKOFF.length ∧ b = true
      · rw [if_pos hcond] at heq
        obtain ⟨j, h1, h2, h3, h4⟩ := ih (i + 1) (by omega) (by omega) e heq
        refine ⟨j, by omega, h2, h3, fun l hl1 hl2 => ?_⟩
        rcases eq_or_lt_of_le hl1 with hli | hli
        · exact ⟨e0, by rw [← hli, hfn, hcond.2]⟩
        · exact h4 l (by omega) hl2
      · rw [if_neg hcond] at heq
        cases heq
        refine ⟨i, le_rfl, hi, ⟨b, hfn, ?_⟩, fun l hl1 hl2 => absurd hl2 (by omega)⟩
        rcases Bool.eq_false_or_eq_true b with hb | hb
        · right
          by_contra hne
          exact hcond ⟨by omega, hb⟩
        · exact Or.inl hb

/-- Helper: the retry loop only consults attempts at indices up to
`RETRY_BACKOFF.length`. -/
theorem retryFrom_congr {ε α : Type} (fn fn2 : ℕ → AttemptResult ε α)
    (hagree : ∀ j, j ≤ RETRY_BACKOFF.length → fn j = fn2 j) :
    ∀ k i, RETRY_BACKOFF.length - i < k → i ≤ RETRY_BACKOFF.length →
      retryFrom fn i = retryFrom fn2 i := by
  intro k
  induction k with
  | zero => intro i hk; omega
  | succ k ih =>
    intro i hk hi
    rw [retryFrom_unfold fn, retryFrom_unfold fn2, hagree i hi]
    rcases hfn2 : fn2 i with v0 | ⟨b, e⟩
    · rfl
    · simp only []
      by_cases hcond : i < RETRY_BACKOFF.length ∧ b = true
      · rw [if_pos hcond, if_pos hcond]
        exact ih (i + 1) (by omega) (by omega)
      · rw [if_neg hcond, if_neg hcond]

/-- C8: `retryWithBackoff` invokes the wrapped operation at most four times
(the success/failure index is at most `3`, and the result only depends on
the first four attempts); it continues past a failed attempt exactly when
the failure is marked retriable (and attempts remain); a non-retriable
failure's error propagates with every earlier attempt having failed
retriably; on success the reported `retries` count equals the number of
failed attempts that preceded the success; and `chatCompletion` marks a
failure retriable exactly for HTTP status 429 or status at least 500. -/
theorem c8_retry_backoff {ε α : Type} :
    (∀ (fn : ℕ → AttemptResult ε α) (v : α) (r : ℕ),
      retryWithBackoff fn = .ok (v, r) →
        r ≤ 3 ∧ fn r = .ok v ∧ ∀ j, j < r → ∃ e, fn j = .err true e) ∧
    (∀ (fn : ℕ → AttemptResult ε α) (e : ε),
      retryWithBackoff fn = .error e →
        ∃ j, j ≤ 3 ∧ (∃ b, fn j = .err b e ∧ (b = false ∨ j = 3)) ∧
          ∀ l, l < j → ∃ e2, fn l = .err true e2) ∧
    (∀ fn fn2 : ℕ → AttemptResult ε α,
      (∀ j, j ≤ 3 → fn j = fn2 j) → retryWithBackoff fn = retryWithBackoff fn2) ∧
    (∀ status : ℕ, chatCompletionRetry status = true ↔ (status = 429 ∨ 500 ≤ status)) := by
  have hlen : RETRY_BACKOFF.length = 3 := rfl
  refine ⟨fun fn v r heq => ?_, fun fn e heq => ?_, fun fn fn2 hagree => ?_, fun status => ?_⟩
  · obtain ⟨h1, h2, h3, h4⟩ :=
      retryFrom_ok_char fn (RETRY_BACKOFF.length + 1) 0 (by omega) (by omega) v r heq
    exact ⟨by omega, h3, fun j hj => h4 j (by omega) hj⟩
  · obtain ⟨j, h1, h2, h3, h4⟩ :=
      retryFrom_error_char fn (RETRY_BACKOFF.length + 1) 0 (by omega) (by omega) e heq
    rw [hlen] at h2 h3
    exact ⟨j, h2, h3, fun l hl => h4 l (by omega) hl⟩
  · refine retryFrom_congr fn fn2 ?_ (RETRY_BACKOFF.length + 1) 0 (by omega) (by omega)
    intro j hj
    exact hagree j (by omega)
  · simp [chatCompletionRetry]

/-- Witness for C8: the attempt sequence that fails retriably twice and then
succeeds returns `retries = 2`, with both earlier attempts retriable. -/
theorem c8_witness :
    (2 : ℕ) ≤ 3 ∧ fn8C 2 = .ok 42 ∧ ∀ j, j < 2 → ∃ e, fn8C j = .err true e := by
  have heval : retryWithBackoff fn8C = .ok (42, 2) := by
    rw [retryWithBackoff, retryFrom_unfold, retryFrom_unfold, retryFrom_unfold]
    norm_num [fn8C, RETRY_BACKOFF]
  exact (c8_retry_backoff (ε := Unit) (α := ℕ)).1 fn8C 42 2 heval

/-! ### C7: `HistoricalTimeManager.receive` -/

/-- C7 (counterexample): a status with both fields set but `currentTime = 0`
is strictly older than the last stored interval's end (`0 < 3`), yet
`receive` is a silent no-op rather than the out-of-order failure the claim
requires, because the JavaScript truthiness test `!engineStatus.currentTime`
also fires on the value `0`. -/
theorem c7_counterexample_zero_time :
    HistoricalTimeManager.receive c7Manager ⟨some 0, some 5⟩ = .ok c7Manager ∧
    c7Manager.intervals.getLast? = some ⟨1, 3⟩ ∧ ((0 : ℚ) < 3) := by
  exact ⟨rfl, rfl, by norm_num⟩

/-- C7 (amended): a status whose `currentTime` or `lastStepTs` is missing
or zero changes no intervals; for a status with both present and non-zero,
`receive` is a no-op when `currentTime` equals the last stored interval's
end, fails with the out-of-order error when `currentTime` is strictly
smaller, and otherwise appends the interval `[lastStepTs, currentTime]`. -/
theorem c7_amended_receive_cases (m : HistoricalTimeManager) (ct ls : ℚ) :
    (∀ o, HistoricalTimeManager.receive m ⟨none, o⟩ = .ok m) ∧
    (∀ o, HistoricalTimeManager.receive m ⟨o, none⟩ = .ok m) ∧
    (HistoricalTimeManager.receive m ⟨some 0, some ls⟩ = .ok m) ∧
    (HistoricalTimeManager.receive m ⟨some ct, some 0⟩ = .ok m) ∧
    (ct ≠ 0 → ls ≠ 0 →
      (m.intervals.getLast? = none →
        HistoricalTimeManager.receive m ⟨some ct, some ls⟩ =
          .ok { m with intervals := m.intervals ++ [⟨ls, ct⟩],
                       totalDuration := m.totalDuration + (ct - ls) }) ∧
      (∀ latest, m.intervals.getLast? = some latest →
        (latest.endTs = ct → HistoricalTimeManager.receive m ⟨some ct, some ls⟩ = .ok m) ∧
        (ct < latest.endTs →
          HistoricalTimeManager.receive m ⟨some ct, some ls⟩ =
            .error "Received out-of-order engine status") ∧
        (latest.endTs < ct →
          HistoricalTimeManager.receive m ⟨some ct, some ls⟩ =
            .ok { m with intervals := m.intervals ++ [⟨ls, ct⟩],
                         totalDuration := m.totalDuration + (ct - ls) }))) := by
  refine ⟨fun o => ?_, fun o => ?_, ?_, ?_, fun hct hls => ⟨fun hnone => ?_,
    fun latest hlast => ⟨fun heq => ?_, fun hlt => ?_, fun hgt => ?_⟩⟩⟩
  · cases o <;> rfl
  · cases o <;> rfl
  · simp [HistoricalTimeManager.receive]
  · simp [HistoricalTimeManager.receive]
  · simp only [HistoricalTimeManager.receive, if_neg (by tauto : ¬ (ct = 0 ∨ ls = 0)), hnone]
  · simp only [HistoricalTimeManager.receive, if_neg (by tauto : ¬ (ct = 0 ∨ ls = 0)), hlast,
      if_pos heq]
  · have hne : ¬ latest.endTs = ct := ne_of_gt hlt
    simp only [HistoricalTimeManager.receive, if_neg (by tauto : ¬ (ct = 0 ∨ ls = 0)), hlast,
      if_neg hne, if_pos hlt]
  · have hne : ¬ latest.endTs = ct := ne_of_lt hgt
    have hnlt : ¬ ct < latest.endTs := not_lt_of_gt hgt
    simp only [HistoricalTimeManager.receive, if_neg (by tauto : ¬ (ct = 0 ∨ ls = 0)), hlast,
      if_neg hne, if_neg hnlt]

/-- Witness for C7: receiving `{currentTime: 5, lastStepTs: 4}` on a manager
whose last interval ends at `3` appends the interval `[4, 5]`. -/
theorem c7_amended_witness :
    HistoricalTimeManager.receive c7Manager ⟨some 5, some 4⟩ =
      .ok { c7Manager with intervals := c7Manager.intervals ++ [⟨4, 5⟩],
                           totalDuration := c7Manager.totalDuration + (5 - 4) } := by
  have h := (c7_amended_receive_cases c7Manager 5 4).2.2.2.2 (by norm_num) (by norm_num)
  exact (h.2 ⟨1, 3⟩ rfl).2.2 (by norm_num)

/-! ### C2: `historicalServerTime` -/

/-- C2 (code-bug evaluation): on the fixed interval list
`[(0,10), (20,30), (100,110)]` with playback state
`prevClientTs = prevServerTs = 0`, the client times `15 ≤ 25` produce
server times `100 > 25`: `historicalServerTime` is not monotonically
non-decreasing in `clientNow`.  The interval scan's snap-forward branch
lacks a `break`, so a timestamp falling in a gap cascades to the start of
the last interval instead of the next one. -/
theorem c2_code_bug_nonmonotone_eval :
    (HistoricalTimeManager.historicalServerTime c2Manager 15).1 = some 100 ∧
    (HistoricalTimeManager.historicalServerTime c2Manager 25).1 = some 25 ∧
    ((15 : ℚ) ≤ 25 ∧ ¬ ((100 : ℚ) ≤ 25)) := by
  refine ⟨?_, ?_, by norm_num⟩ <;>
    norm_num [HistoricalTimeManager.historicalServerTime, c2Manager,
      HistoricalTimeManager.chooseLoop, MAX_SERVER_BUFFER_AGE, SOFT_MAX_SERVER_BUFFER_AGE,
      SOFT_MIN_SERVER_BUFFER_AGE]

/-! ### C6: `pathPosition` -/

/-- Helper: `getLastD` of a non-empty list ignores the default. -/
theorem getLastD_irrel {γ : Type*} (l : List γ) (hne : l ≠ []) (d d' : γ) :
    l.getLastD d = l.getLastD d' := by
  rw [List.getLastD_eq_getLast?, List.getLastD_eq_getLast?]
  rcases hl : l.getLast? with _ | x
  · exact absurd (List.getLast?_eq_none_iff.mp hl) hne
  · rfl

/-- Helper: along a strictly increasing path the first timestamp is at most
the last. -/
theorem chain_headD_le_getLastD :
    ∀ l : GamePath, l ≠ [] → l.Chain' (fun p q => p.t < q.t) →
      (l.headD default).t ≤ (l.getLastD default).t := by
  intro l
  induction l with
  | nil => intro h; exact absurd rfl h
  | cons a tail ih =>
    intro _ hc
    rcases tail with _ | ⟨b, rest⟩
    · simp
    · have hc' := (List.chain'_cons.mp hc)
      have h1 : a.t < b.t := hc'.1
      have h2 := ih (by simp) hc'.2
      simp only [List.headD_cons] at h2 ⊢
      rw [List.getLastD_cons, getLastD_irrel (b :: rest) (by simp) a default]
      calc a.t ≤ b.t := le_of_lt h1
        _ ≤ _ := by simpa using h2

/-- Helper: on a strictly increasing path enclosing `time`, the segment
scan finds the first enclosing adjacent pair and interpolates there. -/
theorem pathPositionSeg_finds :
    ∀ l : GamePath, 2 ≤ l.length → l.Chain' (fun p q => p.t < q.t) →
      ∀ time : ℚ, (l.headD default).t ≤ time → time ≤ (l.getLastD default).t →
      ∃ pre a b post, l = pre ++ a :: b :: post ∧ a.t ≤ time ∧ time ≤ b.t ∧
        pathPositionSeg l time = some (segSample a b time) := by
  intro l
  induction l with
  | nil => intro h; simp at h
  | cons a tail ih =>
    intro hlen hc time h1 h2
    rcases tail with _ | ⟨b, rest⟩
    · simp at hlen
    · by_cases henc : a.t ≤ time ∧ time ≤ b.t
      · refine ⟨[], a, b, rest, by simp, henc.1, henc.2, ?_⟩
        simp only [pathPositionSeg, if_pos henc]
      · have hc' := List.chain'_cons.mp hc
        have hbt : b.t < time := by
          rcases not_and_or.mp henc with h | h
          · exact absurd (by simpa using h1) h
          · exact lt_of_not_le h
        rcases rest with _ | ⟨c, rest'⟩
        · exfalso
          have : (([a, b] : GamePath).getLastD default).t = b.t := by simp
          rw [this] at h2
          exact absurd h2 (not_le_of_lt hbt)
        · have h2' : time ≤ (((b :: c :: rest') : GamePath).getLastD default).t := by
            rw [List.getLastD_cons, getLastD_irrel (b :: c :: rest') (by simp) a default] at h2
            exact h2
          obtain ⟨pre, a', b', post, heq, ha', hb', hseg⟩ :=
            ih (by simp) hc'.2 time (by simpa using le_of_lt hbt) h2'
          refine ⟨a :: pre, a', b', post, by rw [List.cons_append, ← heq], ha', hb', ?_⟩
          rw [show pathPositionSeg (a :: b :: c :: rest') time =
            pathPositionSeg (b :: c :: rest') time from by
              simp only [pathPositionSeg, if_neg henc]]
          exact hseg

/-- C6: for a path with at least two points and strictly increasing
timestamps, `pathPosition` clamps to the first point with velocity `0`
before the path, clamps to the last point with velocity `0` after the path,
and otherwise linearly interpolates the position inside an enclosing
segment, with the segment's starting facing and with velocity equal to the
segment's Euclidean length divided by its duration. -/
theorem c6_path_position_interpolation (path : GamePath) (time : ℚ)
    (hlen : 2 ≤ path.length) (hmono : path.Chain' (fun p q => p.t < q.t)) :
    (time < (path.headD default).t →
      pathPosition path time =
        some ⟨(path.headD default).position, (path.headD default).facing, 0⟩) ∧
    ((path.getLastD default).t < time →
      pathPosition path time =
        some ⟨(path.getLastD default).position, (path.getLastD default).facing, 0⟩) ∧
    ((path.headD default).t ≤ time → time ≤ (path.getLastD default).t →
      ∃ pre a b post, path = pre ++ a :: b :: post ∧ a.t ≤ time ∧ time ≤ b.t ∧
        pathPosition path time = some (segSample a b time) ∧
        (segSample a b time).position =
          ⟨a.position.x + ((time - a.t) / (b.t - a.t)) * (b.position.x - a.position.x),
           a.position.y + ((time - a.t) / (b.t - a.t)) * (b.position.y - a.position.y)⟩ ∧
        (segSample a b time).velocity = distance a.position b.position / ((b.t - a.t : ℚ) : ℝ)) := by
  have hnotshort : ¬ path.length < 2 := not_lt.mpr hlen
  refine ⟨fun hbefore => ?_, fun hafter => ?_, fun h1 h2 => ?_⟩
  · simp only [pathPosition, if_neg hnotshort, if_pos hbefore]
  · have hne : path ≠ [] := by
      intro h; rw [h] at hlen; simp at hlen
    have hfl := chain_headD_le_getLastD path hne hmono
    have hnb : ¬ time < (path.headD default).t := not_lt.mpr (le_trans hfl (le_of_lt hafter))
    simp only [pathPosition, if_neg hnotshort, if_neg hnb, if_pos hafter]
  · obtain ⟨pre, a, b, post, heq, ha, hb, hseg⟩ :=
      pathPositionSeg_finds path hlen hmono time h1 h2
    have hnb : ¬ time < (path.headD default).t := not_lt.mpr h1
    have hna : ¬ (path.getLastD default).t < time := not_lt.mpr h2
    exact ⟨pre, a, b, post, heq, ha, hb, by
      simp only [pathPosition, if_neg hnotshort, if_neg hnb, if_neg hna, hseg], rfl, rfl⟩

/-- Witness for C6: on a two-point path from `(0,0)` at `t = 0` to `(1,0)`
at `t = 1000`, the time `500` is enclosed, and `pathPosition` interpolates
inside the enclosing segment. -/
theorem c6_witness :
    ∃ pre a b post, c6Path = pre ++ a :: b :: post ∧ a.t ≤ 500 ∧ (500 : ℚ) ≤ b.t ∧
      pathPosition c6Path 500 = some (segSample a b 500) ∧
      (segSample a b 500).position =
        ⟨a.position.x + ((500 - a.t) / (b.t - a.t)) * (b.position.x - a.position.x),
         a.position.y + ((500 - a.t) / (b.t - a.t)) * (b.position.y - a.position.y)⟩ ∧
      (segSample a b 500).velocity = distance a.position b.position / ((b.t - a.t : ℚ) : ℝ) := by
  have h := c6_path_position_interpolation c6Path 500 (by decide)
    (by norm_num [c6Path, List.chain'_cons, List.chain'_singleton])
  exact h.2.2 (by norm_num [c6Path]) (by norm_num [c6Path])

/-! ### C4: streaming stop-word truncation -/

/-- Helper: `indexOfSub` on the empty string misses any non-empty word. -/
theorem indexOfSub_nil (w : List Char) (hw : w ≠ []) : indexOfSub [] w = none := by
  cases w with
  | nil => exact absurd rfl hw
  | cons x rest => simp [indexOfSub, List.isPrefixOf]

/-- Helper: `indexOfSub` returns `none` exactly when the word occurs at no
position. -/
theorem indexOfSub_eq_none_iff :
    ∀ (l w : List Char), indexOfSub l w = none ↔ ∀ p, ¬ w <+: l.drop p := by
  intro l
  induction l with
  | nil =>
    intro w
    unfold indexOfSub
    by_cases hw : w.isPrefixOf ([] : List Char)
    · rw [if_pos hw]
      constructor
      · intro h; cases h
      · intro h
        exact absurd (List.isPrefixOf_iff_prefix.mp hw) (by simpa using h 0)
    · rw [if_neg hw]
      constructor
      · intro _ p hocc
        have hocc2 : w <+: ([] : List Char) := by simpa using hocc
        exact hw (List.isPrefixOf_iff_prefix.mpr hocc2)
      · intro _; rfl
  | cons x rest ih =>
    intro w
    unfold indexOfSub
    by_cases hw : w.isPrefixOf (x :: rest)
    · rw [if_pos hw]
      constructor
      · intro h; cases h
      · intro h
        exact absurd (List.isPrefixOf_iff_prefix.mp hw) (by simpa using h 0)
    · rw [if_neg hw]
      constructor
      · intro h p
        replace h : (indexOfSub rest w).map (· + 1) = none := h
        have hnone : indexOfSub rest w = none := by
          rcases hrec : indexOfSub rest w with _ | i
          · rfl
          · rw [hrec] at h; simp at h
        cases p with
        | zero =>
          simp only [List.drop_zero]
          intro hocc
          exact hw (List.isPrefixOf_iff_prefix.mpr hocc)
        | succ p =>
          simpa using (ih w).mp hnone p
      · intro h
        have hnone : indexOfSub rest w = none :=
          (ih w).mpr (fun p => by simpa using h (p + 1))
        show (indexOfSub rest w).map (· + 1) = none
        rw [hnone]; rfl

/-- Helper: `indexOfSub` returns `some i` exactly for the first occurrence. -/
theorem indexOfSub_eq_some_iff :
    ∀ (l w : List Char) (i : ℕ), indexOfSub l w = some i ↔
      (w <+: l.drop i ∧ ∀ p, p < i → ¬ w <+: l.drop p) := by
  intro l
  induction l with
  | nil =>
    intro w i
    unfold indexOfSub
    by_cases hw : w.isPrefixOf ([] : List Char)
    · rw [if_pos hw]
      constructor
      · intro h
        injection h with h
        subst h
        exact ⟨by simpa using List.isPrefixOf_iff_prefix.mp hw, fun p hp => by omega⟩
      · rintro ⟨h1, h2⟩
        rcases Nat.eq_zero_or_pos i with h | h
        · rw [h]
        · exact absurd
            (show w <+: List.drop 0 ([] : List Char) by
              simpa using List.isPrefixOf_iff_prefix.mp hw)
            (h2 0 h)
    · rw [if_neg hw]
      constructor
      · intro h; cases h
      · rintro ⟨h1, h2⟩
        have hocc2 : w <+: ([] : List Char) := by simpa using h1
        exact absurd (List.isPrefixOf_iff_prefix.mpr hocc2) hw
  | cons x rest ih =>
    intro w i
    unfold indexOfSub
    by_cases hw : w.isPrefixOf (x :: rest)
    · rw [if_pos hw]
      constructor
      · intro h
        injection h with h
        subst h
        exact ⟨by simpa using List.isPrefixOf_iff_prefix.mp hw, fun p hp => by omega⟩
      · rintro ⟨h1, h2⟩
        rcases Nat.eq_zero_or_pos i with h | h
        · rw [h]
        · exact absurd
            (show w <+: (x :: rest).drop 0 by
              simpa using List.isPrefixOf_iff_prefix.mp hw)
            (h2 0 h)
    · rw [if_neg hw]
      constructor
      · intro h
        replace h : (indexOfSub rest w).map (· + 1) = some i := h
        rcases hrec : indexOfSub rest w with _ | j
        · rw [hrec] at h; cases h
        · rw [hrec] at h
          simp only [Option.map_some'] at h
          injection h with h
          subst h
          obtain ⟨hj1, hj2⟩ := (ih w j).mp hrec
          refine ⟨by simpa using hj1, ?_⟩
          intro p hp
          cases p with
          | zero =>
            simp only [List.drop_zero]
            intro hocc
            exact hw (List.isPrefixOf_iff_prefix.mpr hocc)
          | succ p =>
            simpa using hj2 p (by omega)
      · rintro ⟨h1, h2⟩
        cases i with
        | zero =>
          exact absurd (List.isPrefixOf_iff_prefix.mpr (by simpa using h1)) hw
        | succ j =>
          have hrest : indexOfSub rest w = some j :=
            (ih w j).mpr ⟨by simpa using h1, fun p hp => by simpa using h2 (p + 1) (by omega)⟩
          show (indexOfSub rest w).map (· + 1) = some (j + 1)
          rw [hrest]; rfl

/-- Helper: reading off `suffixOverlapsPrefixFn = false`. -/
theorem suffixOverlapsPrefixFn_eq_false_iff (s w : List Char) :
    suffixOverlapsPrefixFn s w = false ↔
      ∀ k, 1 ≤ k → k ≤ min s.length w.length → s.drop (s.length - k) ≠ w.take k := by
  unfold suffixOverlapsPrefixFn
  rw [← Bool.not_eq_true, List.any_eq_true]
  constructor
  · intro h k hk1 hk2 heq
    exact h ⟨k, by rw [List.mem_range'_1]; omega, by simpa using heq⟩
  · rintro h ⟨k, hmem, hdec⟩
    rw [List.mem_range'_1] at hmem
    exact h k (by omega) (by omega) (by simpa using hdec)

/-- Helper: a prefix of an append that fits inside the first part is a
prefix of the first part. -/
theorem prefix_of_append_left {w l1 l2 : List Char} (h : w <+: l1 ++ l2)
    (hlen : w.length ≤ l1.length) : w <+: l1 := by
  have h2 : w <+: (l1 ++ l2).take l1.length := List.prefix_take_iff.mpr ⟨h, hlen⟩
  rwa [List.take_left] at h2

/-- Helper: a word that occurs nowhere in `E`, does not end a prefix of
itself at the end of `E`, and occurs nowhere in `F`, occurs nowhere in
`E ++ F`. -/
theorem no_occ_append (w E F : List Char)
    (hE1 : indexOfSub E w = none)
    (hE2 : ∀ k, 1 ≤ k → k < w.length → E.drop (E.length - k) ≠ w.take k)
    (hF : indexOfSub F w = none) :
    indexOfSub (E ++ F) w = none := by
  rw [indexOfSub_eq_none_iff]
  intro p hocc
  by_cases hpE : E.length ≤ p
  · rw [List.drop_append_eq_append_drop, List.drop_eq_nil_of_le hpE, List.nil_append] at hocc
    exact (indexOfSub_eq_none_iff F w).mp hF (p - E.length) hocc
  · push_neg at hpE
    rw [List.drop_append_of_le_length (le_of_lt hpE)] at hocc
    by_cases hw2 : p + w.length ≤ E.length
    · have hocc2 : w <+: E.drop p :=
        prefix_of_append_left hocc (by simp only [List.length_drop]; omega)
      exact (indexOfSub_eq_none_iff E w).mp hE1 p hocc2
    · push_neg at hw2
      have hk1 : 1 ≤ E.length - p := by omega
      have hk2 : E.length - p < w.length := by omega
      apply hE2 (E.length - p) hk1 hk2
      obtain ⟨t, ht⟩ := hocc
      have h3 : (w ++ t).take (E.length - p) = (E.drop p ++ F).take (E.length - p) := by rw [ht]
      rw [List.take_append_of_le_length (by omega : E.length - p ≤ w.length)] at h3
      rw [List.take_append_of_le_length
        (by simp only [List.length_drop]; omega : E.length - p ≤ (E.drop p).length)] at h3
      rw [show (E.drop p).take (E.length - p) = E.drop p from by
        rw [show E.length - p = (E.drop p).length from by simp]; exact List.take_length _] at h3
      rw [show E.length - (E.length - p) = p from by omega]
      exact h3.symm

/-- Helper: with no occurrence in `E` and no stop-word prefix ending `E`,
the first occurrence of `w` in `E ++ lf ++ r` sits at `E.length + idx`
whenever `idx` is the first occurrence inside `lf`. -/
theorem first_occ_append (w E lf r : List Char) (hw : w ≠ [])
    (hE1 : indexOfSub E w = none)
    (hE2 : ∀ k, 1 ≤ k → k < w.length → E.drop (E.length - k) ≠ w.take k)
    (idx : ℕ) (hidx : indexOfSub lf w = some idx) :
    indexOfSub (E ++ lf ++ r) w = some (E.length + idx) := by
  obtain ⟨h1, h2⟩ := (indexOfSub_eq_some_iff lf w idx).mp hidx
  have hwlen : 1 ≤ w.length := by
    cases w with
    | nil => exact absurd rfl hw
    | cons a b => simp
  have hinlf : idx + w.length ≤ lf.length := by
    have := h1.length_le
    simp only [List.length_drop] at this
    omega
  rw [indexOfSub_eq_some_iff]
  constructor
  · rw [List.append_assoc, List.drop_append]
    rw [List.drop_append_of_le_length (by omega : idx ≤ lf.length)]
    exact h1.trans (List.prefix_append _ _)
  · intro p hp hocc
    by_cases hpE : p < E.length
    · rw [List.append_assoc] at hocc
      rw [List.drop_append_of_le_length (le_of_lt hpE)] at hocc
      by_cases hw2 : p + w.length ≤ E.length
      · exact (indexOfSub_eq_none_iff E w).mp hE1 p
          (prefix_of_append_left hocc (by simp only [List.length_drop]; omega))
      · push_neg at hw2
        apply hE2 (E.length - p) (by omega) (by omega)
        obtain ⟨t, ht⟩ := hocc
        have h3 : (w ++ t).take (E.length - p) = (E.drop p ++ (lf ++ r)).take (E.length - p) := by
          rw [ht]
        rw [List.take_append_of_le_length (by omega : E.length - p ≤ w.length)] at h3
        rw [List.take_append_of_le_length
          (by simp only [List.length_drop]; omega : E.length - p ≤ (E.drop p).length)] at h3
        rw [show (E.drop p).take (E.length - p) = E.drop p from by
          rw [show E.length - p = (E.drop p).length from by simp]; exact List.take_length _] at h3
        rw [show E.length - (E.length - p) = p from by omega]
        exact h3.symm
    · push_neg at hpE
      have hq : p - E.length < idx := by omega
      rw [List.append_assoc, List.drop_append_eq_append_drop,
        List.drop_eq_nil_of_le hpE, List.nil_append] at hocc
      rw [List.drop_append_of_le_length (by omega : p - E.length ≤ lf.length)] at hocc
      have hocc2 : w <+: lf.drop (p - E.length) :=
        prefix_of_append_left hocc (by simp only [List.length_drop]; omega)
      exact h2 (p - E.length) hq hocc2

/-- Helper: the no-stop-word-prefix-at-the-end invariant is preserved when a
fragment with no overlap is appended. -/
theorem p2_append (w E lf : List Char)
    (hE2 : ∀ k, 1 ≤ k → k < w.length → E.drop (E.length - k) ≠ w.take k)
    (hover : suffixOverlapsPrefixFn lf w = false) :
    ∀ k, 1 ≤ k → k < w.length → (E ++ lf).drop ((E ++ lf).length - k) ≠ w.take k := by
  intro k hk1 hk2 hEq
  by_cases hkl : k ≤ lf.length
  · have h1 : (E ++ lf).drop ((E ++ lf).length - k) = lf.drop (lf.length - k) := by
      rw [List.length_append,
        show E.length + lf.length - k = E.length + (lf.length - k) from by omega,
        List.drop_append]
    rw [h1] at hEq
    exact (suffixOverlapsPrefixFn_eq_false_iff lf w).mp hover k hk1
      (le_min hkl (by omega)) hEq
  · push_neg at hkl
    by_cases hkE : k - lf.length ≤ E.length
    · have h1 : (E ++ lf).drop ((E ++ lf).length - k) =
          E.drop (E.length - (k - lf.length)) ++ lf := by
        rw [List.drop_append_of_le_length (by simp only [List.length_append]; omega)]
        congr 2
        simp only [List.length_append]
        omega
      rw [h1] at hEq
      have hmlen : (E.drop (E.length - (k - lf.length))).length = k - lf.length := by
        simp only [List.length_drop]
        omega
      have h3 := congrArg (List.take (k - lf.length)) hEq
      rw [List.take_append_of_le_length (le_of_eq hmlen.symm)] at h3
      rw [List.take_of_length_le (le_of_eq hmlen)] at h3
      rw [List.take_take, min_eq_left (by omega : k - lf.length ≤ k)] at h3
      exact hE2 (k - lf.length) (by omega) (by omega) h3
    · push_neg at hkE
      have hlen := congrArg List.length hEq
      simp only [List.length_drop, List.length_append, List.length_take] at hlen
      omega

/-- Helper: the stop-word scan over a one-word list is that word's search. -/
theorem findStopIdx_single (w lf : List Char) : findStopIdx [w] lf = indexOfSub lf w := by
  rcases h : indexOfSub lf w with _ | i <;> simp [findStopIdx, h]

/-- Helper: the first-occurrence-of-any-stop-word index over a one-word
list is that word's first occurrence. -/
theorem firstStop_single (c w : List Char) : firstStopIdx c [w] = indexOfSub c w := by
  rcases h : indexOfSub c w with _ | i <;> simp [firstStopIdx, h]

/-- Helper: the invariant-carrying specification of `readLoop` for a single
stop word: yielded output (after the already-emitted text `E`) equals the
total content truncated at the first stop-word occurrence. -/
theorem readLoop_single_spec (w : List Char) (hw : w ≠ []) :
    ∀ (chunks : List (List Char)) (E F : List Char),
      indexOfSub F w = none →
      indexOfSub E w = none →
      (∀ k, 1 ≤ k → k < w.length → E.drop (E.length - k) ≠ w.take k) →
      E ++ (readLoop [w] chunks F).join = truncAtFirstStop (E ++ (F ++ chunks.join)) [w] := by
  have hwlen : 1 ≤ w.length := by
    cases w with
    | nil => exact absurd rfl hw
    | cons a b => simp
  intro chunks
  induction chunks with
  | nil =>
    intro E F hF hE1 hE2
    have hnone : indexOfSub (E ++ F) w = none := no_occ_append w E F hE1 hE2 hF
    simp only [readLoop, List.join_cons, List.join_nil, List.append_nil]
    unfold truncAtFirstStop
    rw [firstStop_single, hnone]
  | cons data rest ih =>
    intro E F hF hE1 hE2
    rcases hscan : indexOfSub (F ++ data) w with _ | idx
    · by_cases hover : hasOverlapB [w] (F ++ data) = true
      · have hstep : readLoop [w] (data :: rest) F = readLoop [w] rest (F ++ data) := by
          simp only [readLoop, findStopIdx_single, hscan, if_pos hover]
        rw [hstep, ih E (F ++ data) hscan hE1 hE2]
        congr 1
        simp [List.append_assoc]
      · have hoverF : suffixOverlapsPrefixFn (F ++ data) w = false := by
          have h2 : hasOverlapB [w] (F ++ data) = false := by
            rcases Bool.eq_false_or_eq_true (hasOverlapB [w] (F ++ data)) with h | h
            · exact absurd h hover
            · exact h
          unfold hasOverlapB at h2
          simpa using h2
        have hstep : readLoop [w] (data :: rest) F = (F ++ data) :: readLoop [w] rest [] := by
          simp only [readLoop, findStopIdx_single, hscan, if_neg hover]
        rw [hstep]
        have hE1' : indexOfSub (E ++ (F ++ data)) w = none :=
          no_occ_append w E (F ++ data) hE1 hE2 hscan
        have hE2' := p2_append w E (F ++ data) hE2 hoverF
        have hrec := ih (E ++ (F ++ data)) [] (indexOfSub_nil w hw) hE1' hE2'
        rw [show E ++ ((F ++ data) :: readLoop [w] rest []).join =
            (E ++ (F ++ data)) ++ ([] ++ (readLoop [w] rest []).join) from by
          simp [List.append_assoc]]
        rw [show ([] : List Char) ++ (readLoop [w] rest []).join =
            (readLoop [w] rest []).join from by simp]
        rw [hrec]
        congr 1
        simp [List.append_assoc]
    · have hstep : readLoop [w] (data :: rest) F = [(F ++ data).take idx] := by
        simp only [readLoop, findStopIdx_single, hscan]
      rw [hstep]
      have hfo := first_occ_append w E (F ++ data) rest.join hw hE1 hE2 idx hscan
      have hidxle : idx + w.length ≤ (F ++ data).length := by
        obtain ⟨h1, _⟩ := (indexOfSub_eq_some_iff _ w idx).mp hscan
        have hlen := h1.length_le
        simp only [List.length_drop] at hlen
        omega
      unfold truncAtFirstStop
      rw [show E ++ (F ++ (data :: rest).join) = E ++ (F ++ data) ++ rest.join from by
        simp [List.append_assoc]]
      rw [firstStop_single, hfo]
      simp only [List.join_cons, List.join_nil, List.append_nil]
      rw [List.append_assoc, List.take_append,
        List.take_append_of_le_length (by omega : idx ≤ (F ++ data).length)]

/-- C4 (amended, single stop word): for one stop word `w`, the
concatenation of the chunks yielded by `read` equals the full decoded
content truncated immediately before the first occurrence of `w` (the
whole content when `w` does not occur), and a non-empty `w` never appears
as a substring of the yielded output, even when split across chunks. -/
theorem c4_amended_single_stop_word (w : List Char) (chunks : List (List Char)) :
    (readChunks [w] chunks).join = truncAtFirstStop chunks.join [w] ∧
    (w ≠ [] → ¬ w <:+: (readChunks [w] chunks).join) := by
  by_cases hw : w = []
  · subst hw
    refine ⟨?_, fun h => absurd rfl h⟩
    cases chunks with
    | nil =>
      simp [readChunks, readLoop, truncAtFirstStop, firstStopIdx, indexOfSub,
        List.isPrefixOf]
    | cons data rest =>
      have h0 : ∀ l : List Char, indexOfSub l [] = some 0 := by
        intro l
        cases l <;> simp [indexOfSub, List.isPrefixOf]
      simp [readChunks, readLoop, findStopIdx, truncAtFirstStop, firstStopIdx, h0]
  · have hE2nil : ∀ k, 1 ≤ k → k < w.length →
        (([] : List Char)).drop ((([] : List Char)).length - k) ≠ w.take k := by
      intro k hk1 hk2 h
      have hlen := congrArg List.length h
      simp only [List.drop_nil, List.length_nil, List.length_take] at hlen
      omega
    have hmain : (readChunks [w] chunks).join = truncAtFirstStop chunks.join [w] := by
      have h := readLoop_single_spec w hw chunks [] [] (indexOfSub_nil w hw)
        (indexOfSub_nil w hw) hE2nil
      simpa [readChunks] using h
    refine ⟨hmain, fun _ hinf => ?_⟩
    rw [hmain] at hinf
    unfold truncAtFirstStop at hinf
    rw [firstStop_single] at hinf
    rcases hidx : indexOfSub chunks.join w with _ | i
    · rw [hidx] at hinf
      replace hinf : w <:+: chunks.join := hinf
      obtain ⟨s, t, hst⟩ := hinf
      apply (indexOfSub_eq_none_iff chunks.join w).mp hidx s.length
      rw [← hst, List.append_assoc, List.drop_left]
      exact List.prefix_append w t
    · rw [hidx] at hinf
      replace hinf : w <:+: chunks.join.take i := hinf
      obtain ⟨h1, h2⟩ := (indexOfSub_eq_some_iff chunks.join w i).mp hidx
      obtain ⟨s, t, hst⟩ := hinf
      have hslen : s.length < i := by
        have hlen := congrArg List.length hst
        have hwlen : 1 ≤ w.length := by
          cases w with
          | nil => exact absurd rfl hw
          | cons a b => simp
        simp only [List.length_append, List.length_take] at hlen
        omega
      apply h2 s.length hslen
      have hc : chunks.join = s ++ w ++ (t ++ chunks.join.drop i) := by
        conv_lhs => rw [← List.take_append_drop i chunks.join]
        rw [← hst]
        simp [List.append_assoc]
      rw [hc, List.append_assoc, List.drop_left]
      exact List.prefix_append w _
/-- C4 (counterexample): with the stop-word list `["b", "a"]` and the single
chunk `"ab"`, `read` yields `"a"`: the output differs from the content
truncated before the first occurrence of any stop word (which is `""`,
since `"a"` occurs at index 0), and the complete stop word `"a"` appears
in the yielded output.  `read` scans stop words in list order per
accumulated fragment, so the first-listed word `"b"` wins even though
`"a"` occurs earlier. -/
theorem c4_counterexample_stop_word_order :
    readChunks [['b'], ['a']] [['a', 'b']] = [['a']] ∧
    (readChunks [['b'], ['a']] [['a', 'b']]).join ≠
      truncAtFirstStop ([['a', 'b']] : List (List Char)).join [['b'], ['a']] ∧
    ['a'] <:+: (readChunks [['b'], ['a']] [['a', 'b']]).join := by
  refine ⟨by decide, by decide, ?_⟩
  exact ⟨[], [], by decide⟩

/-- Witness for C4 (amended): for the stop word `"xy"` split across the
chunks `"ax"` and `"yb"`, the yielded output is the content truncated
before `"xy"` and never contains `"xy"`. -/
theorem c4_amended_witness :
    (readChunks [['x', 'y']] [['a', 'x'], ['y', 'b']]).join =
      truncAtFirstStop ([['a', 'x'], ['y', 'b']] : List (List Char)).join [['x', 'y']] ∧
    ¬ (['x', 'y'] <:+: (readChunks [['x', 'y']] [['a', 'x'], ['y', 'b']]).join) := by
  have h := c4_amended_single_stop_word ['x', 'y'] [['a', 'x'], ['y', 'b']]
  exact ⟨h.1, h.2 (by decide)⟩

/-! ### C3: the binary heap -/

namespace MinHeap

variable {α : Type*} [LinearOrder α]

/-- Helper: reading the written slot. -/
theorem HeapWrite_same (t : ℕ → α) (i : ℕ) (v : α) : HeapWrite t i v i = v := by
  simp [HeapWrite]

/-- Helper: reading another slot. -/
theorem HeapWrite_other (t : ℕ → α) (i j : ℕ) (v : α) (h : j ≠ i) :
    HeapWrite t i v j = t j := by
  simp [HeapWrite, h]

/-- Helper: splitting the index interval `[1, e]` at a member `d`. -/
theorem msOf_split (t : ℕ → α) (e d : ℕ) (hd : 1 ≤ d) (hde : d ≤ e) :
    msOf t e = t d ::ₘ msExcept t e d := by
  unfold msOf msExcept
  have key := List.range'_append 1 (d - 1) (e - d + 1) 1
  rw [show 1 + 1 * (d - 1) = d from by omega,
    show e - d + 1 + (d - 1) = e from by omega] at key
  have hsplit2 : List.range' d (e - d + 1) = d :: List.range' (d + 1) (e - d) := by
    rw [List.range'_succ]
  rw [← key, hsplit2]
  simp [Multiset.cons_add]

/-- Helper: the contents of a tree after a write, with the written slot
singled out. -/
theorem msOf_write (t : ℕ → α) (e d : ℕ) (v : α) (hd : 1 ≤ d) (hde : d ≤ e) :
    msOf (HeapWrite t d v) e = v ::ₘ msExcept t e d := by
  rw [msOf_split (HeapWrite t d v) e d hd hde, HeapWrite_same]
  congr 1
  unfold msExcept
  congr 1
  · congr 1
    apply List.map_congr_left
    intro j hj
    rw [List.mem_range'_1] at hj
    exact HeapWrite_other t d j v (by omega)
  · congr 1
    apply List.map_congr_left
    intro j hj
    rw [List.mem_range'_1] at hj
    exact HeapWrite_other t d j v (by omega)

/-- Helper: `msOf` only reads slots `1 .. e`. -/
theorem msOf_congr (t t2 : ℕ → α) (e : ℕ) (h : ∀ j, 1 ≤ j → j ≤ e → t j = t2 j) :
    msOf t e = msOf t2 e := by
  unfold msOf
  congr 1
  apply List.map_congr_left
  intro j hj
  rw [List.mem_range'_1] at hj
  exact h j (by omega) (by omega)

/-- Helper: one step of the hole-moving argument — writing the value of
slot `p` into the hole `d` moves the hole to `p` without changing the
multiset of non-hole slots. -/
theorem msExcept_move (t : ℕ → α) (e d p : ℕ) (hp1 : 1 ≤ p) (hpe : p ≤ e)
    (hd1 : 1 ≤ d) (hde : d ≤ e) (hne : p ≠ d) :
    msExcept (HeapWrite t d (t p)) e p = msExcept t e d := by
  have e1 : msOf (HeapWrite t d (t p)) e = t p ::ₘ msExcept t e d :=
    msOf_write t e d (t p) hd1 hde
  have e2 : msOf (HeapWrite t d (t p)) e =
      (HeapWrite t d (t p)) p ::ₘ msExcept (HeapWrite t d (t p)) e p :=
    msOf_split _ e p hp1 hpe
  rw [HeapWrite_other t d p (t p) hne] at e2
  have := e1.symm.trans e2
  exact (Multiset.cons_inj_right (t p)).mp this.symm

/-- Helper: the hole at the top index is the rest of the interval. -/
theorem msExcept_top (t : ℕ → α) (e : ℕ) : msExcept t e e = msOf t (e - 1) := by
  unfold msExcept msOf
  simp

/-- Helper: multiset of the push loop — the pushed value plus everything
except the hole. -/
theorem pushLoop_msOf (v : α) :
    ∀ d t (E : ℕ), 1 ≤ d → d ≤ E → msOf (pushLoop gtOf v t d) E = v ::ₘ msExcept t E d := by
  intro d
  induction d using Nat.strong_induction_on with
  | _ d ih =>
    intro t E hd hdE
    rw [pushLoop]
    by_cases hn : 0 < d / 2
    · rw [dif_pos hn]
      by_cases hgt : gtOf v (t (d / 2)) = true
      · rw [if_pos hgt]
        exact msOf_write t E d v hd hdE
      · rw [if_neg hgt]
        rw [ih (d / 2) (by omega) _ E (by omega) (by omega)]
        congr 1
        exact msExcept_move t E d (d / 2) (by omega) (by omega) hd hdE (by omega)
    · rw [dif_neg hn]
      exact msOf_write t E d v hd hdE

/-- Helper: pushing adds the new value to the contents and preserves a
positive `endIndex`. -/
theorem push_contents (h : MinHeap α) (v : α) (hE : 1 ≤ h.endIndex) :
    contents (push gtOf h v) = v ::ₘ contents h ∧ 1 ≤ (push gtOf h v).endIndex := by
  constructor
  · unfold contents push
    simp only [Nat.add_sub_cancel]
    rw [pushLoop_msOf v h.endIndex h.tree h.endIndex hE le_rfl, msExcept_top]
  · unfold push
    simp only []
    omega

/-- Helper: multiset of the pop sift-down loop — the re-inserted last value
plus everything except the hole (unless the hole is already outside the
shrunk content, in which case nothing changes). -/
theorem popLoop_msOf (lv : α) (e : ℕ) :
    ∀ k d t, e - d ≤ k → 1 ≤ d → d ≤ e → t e = lv →
      msOf (popLoop gtOf lv e t d) (e - 1) =
        if d < e then lv ::ₘ msExcept t (e - 1) d else msOf t (e - 1) := by
  intro k
  induction k with
  | zero =>
    intro d t hk hd hde hte
    have hdeq : d = e := by omega
    subst hdeq
    rw [popLoop]
    rw [dif_neg (by omega)]
    rw [if_neg (by omega)]
    apply msOf_congr
    intro j hj1 hj2
    exact HeapWrite_other t d j lv (by omega)
  | succ k ih =>
    intro d t hk hd hde hte
    rw [popLoop]
    by_cases hguard : 0 < d ∧ 2 * d < e
    · rw [dif_pos hguard]
      have hdlt : d < e := by omega
      rw [if_pos hdlt]
      set n := popNext gtOf t e (2 * d) with hn
      have hnrange : n = 2 * d ∨ n = 2 * d + 1 := by
        rw [hn]; unfold popNext; split
        · right; rfl
        · left; rfl
      have hnle : n ≤ e := by
        rw [hn]; unfold popNext; split
        · omega
        · omega
      have hn1 : 1 ≤ n := by omega
      have hnd : n ≠ d := by omega
      by_cases hbrk : gtOf (t n) lv = true
      · rw [if_pos hbrk]
        exact msOf_write t (e - 1) d lv hd (by omega)
      · rw [if_neg hbrk]
        have hte' : HeapWrite t d (t n) e = lv := by
          rw [HeapWrite_other t d e (t n) (by omega)]
          exact hte
        rw [ih n (HeapWrite t d (t n)) (by omega) hn1 hnle hte']
        by_cases hne : n < e
        · rw [if_pos hne]
          congr 1
          exact msExcept_move t (e - 1) d n hn1 (by omega) hd (by omega) hnd
        · rw [if_neg hne]
          have hneq : n = e := by omega
          rw [hneq, hte]
          exact msOf_write t (e - 1) d lv hd (by omega)
    · rw [dif_neg hguard]
      have h2de : e ≤ 2 * d := by omega
      by_cases hdlt : d < e
      · rw [if_pos hdlt]
        exact msOf_write t (e - 1) d lv hd (by omega)
      · rw [if_neg hdlt]
        apply msOf_congr
        intro j hj1 hj2
        exact HeapWrite_other t d j lv (by omega)

/-- Helper: popping a non-empty heap returns the root, shrinks the heap, and
removes one copy of the root from the contents. -/
theorem pop_contents (h : MinHeap α) (hE : 2 ≤ h.endIndex) :
    (pop gtOf h).1 = some (h.tree 1) ∧
    (pop gtOf h).2.endIndex = h.endIndex - 1 ∧
    contents h = h.tree 1 ::ₘ contents (pop gtOf h).2 := by
  unfold pop
  rw [if_neg (by omega : ¬ h.endIndex = 1)]
  refine ⟨rfl, rfl, ?_⟩
  simp only [contents]
  have hrw := popLoop_msOf (h.tree (h.endIndex - 1)) (h.endIndex - 1)
    (h.endIndex - 1) 1 h.tree (by omega) (by omega) (by omega) rfl
  rcases Nat.lt_or_ge 1 (h.endIndex - 1) with hgt | hle
  · rw [if_pos hgt] at hrw
    rw [hrw]
    have hconcat : msOf h.tree (h.endIndex - 1) =
        msOf h.tree (h.endIndex - 1 - 1) + {h.tree (h.endIndex - 1)} := by
      unfold msOf
      conv_lhs => rw [show h.endIndex - 1 = (h.endIndex - 1 - 1) + 1 from by omega]
      rw [List.range'_concat]
      rw [show 1 + 1 * (h.endIndex - 1 - 1) = h.endIndex - 1 from by omega]
      simp only [List.map_append, List.map_cons, List.map_nil, ← Multiset.coe_add,
        Multiset.coe_singleton]
    rw [hconcat, msOf_split h.tree (h.endIndex - 1 - 1) 1 le_rfl (by omega)]
    rw [add_comm, Multiset.singleton_add, Multiset.cons_swap]
  · rw [if_neg (by omega)] at hrw
    rw [hrw]
    have h2 : h.endIndex = 2 := by omega
    rw [h2]
    show msOf h.tree 1 = h.tree 1 ::ₘ msOf h.tree 0
    unfold msOf
    simp [List.range']


/-- Helper: the comparator `gtOf` decides the strict order. -/
theorem gtOf_iff (a b : α) : gtOf a b = true ↔ b < a := by
  simp [gtOf]

/-- Helper: writing `v` into the hole `d` restores the heap invariant when
`v` is at least the hole's parent and at most the hole's children. -/
theorem write_inv (t : ℕ → α) (E d : ℕ) (v : α) (hd1 : 1 ≤ d)
    (ha : ∀ j, 2 ≤ j → j < E → j ≠ d →
      (if j / 2 = d then 2 ≤ d → t (d / 2) ≤ t j else t (j / 2) ≤ t j))
    (hpar : 2 ≤ d → t (d / 2) ≤ v)
    (hchild : ∀ j, 2 ≤ j → j < E → j ≠ d → j / 2 = d → v ≤ t j) :
    Inv (HeapWrite t d v) E := by
  intro j hj2 hjE
  by_cases hjd : j = d
  · subst hjd
    rw [HeapWrite_same, HeapWrite_other t j (j / 2) v (by omega)]
    exact hpar hj2
  · rw [HeapWrite_other t d j v hjd]
    by_cases hpd : j / 2 = d
    · rw [hpd, HeapWrite_same]
      exact hchild j hj2 hjE hjd hpd
    · rw [HeapWrite_other t d (j / 2) v hpd]
      have h := ha j hj2 hjE hjd
      rw [if_neg hpd] at h
      exact h

/-- Helper: the bubble-up loop restores the heap invariant on `[2, E)`,
given the hole-form invariant at the current hole `d`. -/
theorem pushLoop_inv (v : α) :
    ∀ d t (E : ℕ), 1 ≤ d → d < E →
      (∀ j, 2 ≤ j → j < E → j ≠ d →
        (if j / 2 = d then 2 ≤ d → t (d / 2) ≤ t j else t (j / 2) ≤ t j)) →
      (∀ j, 2 ≤ j → j < E → j ≠ d → j / 2 = d → v ≤ t j) →
      Inv (pushLoop gtOf v t d) E := by
  intro d
  induction d using Nat.strong_induction_on with
  | _ d ih =>
    intro t E hd1 hdE ha hb
    rw [pushLoop]
    by_cases hn : 0 < d / 2
    · rw [dif_pos hn]
      by_cases hgt : gtOf v (t (d / 2)) = true
      · rw [if_pos hgt]
        exact write_inv t E d v hd1 ha
          (fun _ => le_of_lt ((gtOf_iff v (t (d / 2))).mp hgt)) hb
      · rw [if_neg hgt]
        have hvle : v ≤ t (d / 2) := le_of_not_lt fun hlt => hgt ((gtOf_iff _ _).mpr hlt)
        have hd2 : 2 ≤ d := by omega
        have hpar : 2 ≤ d / 2 → t (d / 2 / 2) ≤ t (d / 2) := by
          intro hp2
          have h := ha (d / 2) hp2 (by omega) (by omega)
          rw [if_neg (by omega)] at h
          exact h
        apply ih (d / 2) (by omega) _ E (by omega) (by omega)
        · intro j hj2 hjE hjp
          by_cases hjd : j = d
          · subst hjd
            rw [if_pos rfl]
            intro hp2
            rw [HeapWrite_same, HeapWrite_other t j (j / 2 / 2) (t (j / 2)) (by omega)]
            exact hpar hp2
          · by_cases hcond : j / 2 = d / 2
            · rw [if_pos hcond]
              intro hp2
              rw [HeapWrite_other t d j (t (d / 2)) hjd,
                HeapWrite_other t d (d / 2 / 2) (t (d / 2)) (by omega)]
              have h := ha j hj2 hjE hjd
              rw [if_neg (by omega)] at h
              rw [hcond] at h
              exact le_trans (hpar hp2) h
            · rw [if_neg hcond, HeapWrite_other t d j (t (d / 2)) hjd]
              by_cases hjd2 : j / 2 = d
              · rw [hjd2, HeapWrite_same]
                have h := ha j hj2 hjE hjd
                rw [if_pos hjd2] at h
                exact h hd2
              · rw [HeapWrite_other t d (j / 2) (t (d / 2)) hjd2]
                have h := ha j hj2 hjE hjd
                rw [if_neg hjd2] at h
                exact h
        · intro j hj2 hjE hjp hjc
          by_cases hjd : j = d
          · subst hjd
            rw [HeapWrite_same]
            exact hvle
          · rw [HeapWrite_other t d j (t (d / 2)) hjd]
            have h := ha j hj2 hjE hjd
            rw [if_neg (by omega)] at h
            rw [hjc] at h
            exact le_trans hvle h
    · rw [dif_neg hn]
      exact write_inv t E d v hd1 ha (fun h2 => absurd h2 (by omega)) hb

/-- Helper: `push` preserves the heap invariant. -/
theorem push_inv (h : MinHeap α) (v : α) (h1 : 1 ≤ h.endIndex)
    (hinv : Inv h.tree h.endIndex) :
    Inv (push gtOf h v).tree (push gtOf h v).endIndex := by
  show Inv (pushLoop gtOf v h.tree h.endIndex) (h.endIndex + 1)
  apply pushLoop_inv v h.endIndex h.tree (h.endIndex + 1) h1 (by omega)
  · intro j hj2 hjE hjd
    rw [if_neg (by omega : ¬ j / 2 = h.endIndex)]
    exact hinv j hj2 (by omega)
  · intro j hj2 hjE hjd hjp
    exact absurd hjp (by omega)

/-- Helper: case analysis for the child selected by `popNext`. -/
theorem popNext_cases (t : ℕ → α) (e d : ℕ) :
    (popNext gtOf t e (2 * d) = 2 * d ∧ (2 * d + 1 ≤ e → t (2 * d) ≤ t (2 * d + 1))) ∨
      (popNext gtOf t e (2 * d) = 2 * d + 1 ∧ 2 * d + 1 ≤ e ∧ t (2 * d + 1) < t (2 * d)) := by
  unfold popNext
  split
  · next hc => exact Or.inr ⟨rfl, hc.1, (gtOf_iff _ _).mp hc.2⟩
  · next hc =>
    refine Or.inl ⟨rfl, fun hle => ?_⟩
    by_contra hlt
    exact hc ⟨hle, (gtOf_iff _ _).mpr (lt_of_not_le hlt)⟩

/-- Helper: the sift-down loop restores the heap invariant on `[2, e)`,
given the hole-form invariant at the current hole `d` and that slot `e`
still holds the re-inserted last value. -/
theorem popLoop_inv (lv : α) (e : ℕ) :
    ∀ k d t, e - d ≤ k → 1 ≤ d → d ≤ e → t e = lv →
      (∀ j, 2 ≤ j → j < e → j ≠ d →
        (if j / 2 = d then 2 ≤ d → t (d / 2) ≤ t j else t (j / 2) ≤ t j)) →
      (2 ≤ d → t (d / 2) ≤ lv) →
      Inv (popLoop gtOf lv e t d) e := by
  intro k
  induction k with
  | zero =>
    intro d t hk hd1 hde hte ha hb
    rw [popLoop, dif_neg (by omega)]
    exact write_inv t e d lv hd1 ha hb (fun j hj2 hje hjd hjp => absurd hjp (by omega))
  | succ k ih =>
    intro d t hk hd1 hde hte ha hb
    rw [popLoop]
    by_cases hguard : 0 < d ∧ 2 * d < e
    · rw [dif_pos hguard]
      set n := popNext gtOf t e (2 * d) with hn
      have hcase := popNext_cases t e d
      rw [← hn] at hcase
      have hn2 : 2 ≤ n := by rcases hcase with ⟨h1, _⟩ | ⟨h1, _, _⟩ <;> omega
      have hnle : n ≤ e := by rcases hcase with ⟨h1, _⟩ | ⟨h1, h2, _⟩ <;> omega
      have hnd : n ≠ d := by rcases hcase with ⟨h1, _⟩ | ⟨h1, _, _⟩ <;> omega
      have hn2d : n / 2 = d := by rcases hcase with ⟨h1, _⟩ | ⟨h1, _, _⟩ <;> omega
      have hsib : ∀ j, 2 ≤ j → j < e → j ≠ d → j ≠ n → j / 2 = d → t n ≤ t j := by
        intro j hj2 hje hjd hjn hjc
        rcases hcase with ⟨h1, h2⟩ | ⟨h1, h2, h3⟩
        · have hj : j = 2 * d + 1 := by omega
          rw [h1, hj]
          exact h2 (by omega)
        · have hj : j = 2 * d := by omega
          rw [h1, hj]
          exact le_of_lt h3
      by_cases hbrk : gtOf (t n) lv = true
      · rw [if_pos hbrk]
        have hlv : lv < t n := (gtOf_iff _ _).mp hbrk
        apply write_inv t e d lv hd1 ha hb
        intro j hj2 hje hjd hjp
        by_cases hjn : j = n
        · rw [hjn]
          exact le_of_lt hlv
        · exact le_trans (le_of_lt hlv) (hsib j hj2 hje hjd hjn hjp)
      · rw [if_neg hbrk]
        have htn : t n ≤ lv := le_of_not_lt fun hlt => hbrk ((gtOf_iff _ _).mpr hlt)
        have htnd : t n ≤ t n := le_refl _
        apply ih n (HeapWrite t d (t n)) (by omega) (by omega) hnle
        · rw [HeapWrite_other t d e (t n) (by omega)]
          exact hte
        · intro j hj2 hje hjn
          by_cases hjd : j = d
          · subst hjd
            rw [if_neg (by omega : ¬ j / 2 = n)]
            rw [HeapWrite_other t j (j / 2) (t n) (by omega), HeapWrite_same]
            rcases Nat.lt_or_ge n e with hnee | hnee
            · have h := ha n hn2 hnee hnd
              rw [if_pos hn2d] at h
              exact h hj2
            · have hne : n = e := by omega
              rw [hne, hte]
              exact hb hj2
          · by_cases hcond : j / 2 = n
            · rw [if_pos hcond]
              intro _
              rw [hn2d, HeapWrite_same, HeapWrite_other t d j (t n) hjd]
              have h := ha j hj2 hje hjd
              rw [if_neg (by omega)] at h
              rw [hcond] at h
              exact h
            · rw [if_neg hcond, HeapWrite_other t d j (t n) hjd]
              by_cases hjd2 : j / 2 = d
              · rw [hjd2, HeapWrite_same]
                exact hsib j hj2 hje hjd (by omega) hjd2
              · rw [HeapWrite_other t d (j / 2) (t n) hjd2]
                have h := ha j hj2 hje hjd
                rw [if_neg hjd2] at h
                exact h
        · intro _
          rw [hn2d, HeapWrite_same]
          exact htn
    · rw [dif_neg hguard]
      apply write_inv t e d lv hd1 ha hb
      intro j hj2 hje hjd hjp
      exact absurd hjp (by omega)

/-- Helper: `pop` preserves the heap invariant. -/
theorem pop_inv (h : MinHeap α) (hE : 2 ≤ h.endIndex) (hinv : Inv h.tree h.endIndex) :
    Inv (pop gtOf h).2.tree (pop gtOf h).2.endIndex := by
  unfold pop
  rw [if_neg (by omega : ¬ h.endIndex = 1)]
  show Inv (popLoop gtOf (h.tree (h.endIndex - 1)) (h.endIndex - 1) h.tree 1) (h.endIndex - 1)
  apply popLoop_inv (h.tree (h.endIndex - 1)) (h.endIndex - 1) (h.endIndex - 1) 1 h.tree
    (by omega) (by omega) (by omega) rfl
  · intro j hj2 hje hjd
    by_cases hp : j / 2 = 1
    · rw [if_pos hp]
      intro h21
      exact absurd h21 (by omega)
    · rw [if_neg hp]
      exact hinv j hj2 (by omega)
  · intro h21
    exact absurd h21 (by omega)

/-- Helper: under the invariant the root is a lower bound for every slot. -/
theorem root_min (t : ℕ → α) (e : ℕ) (hinv : Inv t e) :
    ∀ j, 1 ≤ j → j < e → t 1 ≤ t j := by
  intro j
  induction j using Nat.strong_induction_on with
  | _ j ih =>
    intro hj1 hje
    rcases Nat.lt_or_ge j 2 with hj2 | hj2
    · have hj : j = 1 := by omega
      subst hj
      exact le_refl _
    · exact le_trans (ih (j / 2) (by omega) (by omega) (by omega)) (hinv j hj2 hje)

/-- Helper: members of `msOf t e` are values of slots in `[1, e]`. -/
theorem mem_msOf (t : ℕ → α) (e : ℕ) (x : α) (hx : x ∈ msOf t e) :
    ∃ j, 1 ≤ j ∧ j ≤ e ∧ t j = x := by
  unfold msOf at hx
  rw [Multiset.mem_coe, List.mem_map] at hx
  obtain ⟨j, hj, hjx⟩ := hx
  rw [List.mem_range'_1] at hj
  exact ⟨j, by omega, by omega, hjx⟩

/-- Helper: draining a heap that satisfies the invariant yields exactly its
contents, in non-decreasing order. -/
theorem drainGo_spec :
    ∀ (n : ℕ) (h : MinHeap α), h.endIndex ≤ n + 1 → 1 ≤ h.endIndex →
      Inv h.tree h.endIndex →
      (drainGo gtOf n h : Multiset α) = contents h ∧
        (drainGo gtOf n h).Sorted (· ≤ ·) := by
  intro n
  induction n with
  | zero =>
    intro h hn h1 hinv
    have he : h.endIndex = 1 := by omega
    constructor
    · show ((([] : List α) : Multiset α)) = contents h
      unfold contents msOf
      rw [he]
      simp
    · exact List.sorted_nil
  | succ n ih =>
    intro h hn h1 hinv
    by_cases he : h.endIndex = 1
    · have hpop : pop gtOf h = (none, h) := by unfold pop; rw [if_pos he]
      have hd : drainGo gtOf (n + 1) h = [] := by
        unfold drainGo
        rw [hpop]
      constructor
      · rw [hd]
        unfold contents msOf
        rw [he]
        simp
      · rw [hd]
        exact List.sorted_nil
    · have he2 : 2 ≤ h.endIndex := by omega
      obtain ⟨hfst, hsnd, hcont⟩ := pop_contents h he2
      have hpop : pop gtOf h = (some (h.tree 1), (pop gtOf h).2) := by
        rw [← hfst]
      have hd : drainGo gtOf (n + 1) h = h.tree 1 :: drainGo gtOf n (pop gtOf h).2 := by
        conv_lhs => unfold drainGo
        rw [hpop]
      have hinv' : Inv (pop gtOf h).2.tree (pop gtOf h).2.endIndex := pop_inv h he2 hinv
      have h1' : 1 ≤ (pop gtOf h).2.endIndex := by rw [hsnd]; omega
      have hn' : (pop gtOf h).2.endIndex ≤ n + 1 := by rw [hsnd]; omega
      obtain ⟨ihm, ihs⟩ := ih (pop gtOf h).2 hn' h1' hinv'
      constructor
      · rw [hd, ← Multiset.cons_coe, ihm, hcont]
      · rw [hd, List.sorted_cons]
        refine ⟨?_, ihs⟩
        intro b hb
        have hbm : b ∈ contents (pop gtOf h).2 := by
          rw [← ihm]
          exact Multiset.mem_coe.mpr hb
        have hbh : b ∈ contents h := by
          rw [hcont]
          exact Multiset.mem_cons_of_mem hbm
        obtain ⟨j, hj1, hj2, hjb⟩ := mem_msOf h.tree (h.endIndex - 1) b hbh
        rw [← hjb]
        exact root_min h.tree h.endIndex hinv j hj1 (by omega)

/-- Helper: folding `push` over a list adds the list's elements to the
contents while preserving the invariant and a positive `endIndex`. -/
theorem foldl_push_spec (xs : List α) :
    ∀ (h : MinHeap α), 1 ≤ h.endIndex → Inv h.tree h.endIndex →
      1 ≤ (xs.foldl (push gtOf) h).endIndex ∧
      Inv (xs.foldl (push gtOf) h).tree (xs.foldl (push gtOf) h).endIndex ∧
      contents (xs.foldl (push gtOf) h) = contents h + (xs : Multiset α) := by
  induction xs with
  | nil =>
    intro h h1 hinv
    exact ⟨h1, hinv, by simp⟩
  | cons a l ih =>
    intro h h1 hinv
    rw [List.foldl_cons]
    obtain ⟨hc, he⟩ := push_contents h a h1
    obtain ⟨ih1, ih2, ih3⟩ := ih (push gtOf h a) he (push_inv h a h1 hinv)
    refine ⟨ih1, ih2, ?_⟩
    rw [ih3, hc, ← Multiset.cons_coe, Multiset.cons_add, Multiset.add_cons]

end MinHeap

/-- C3: for the strictly-greater-than comparator `gtOf` of any linear
order, pushing any finite sequence of elements into an empty `MinHeap` and
then repeatedly popping returns exactly the pushed elements (as a
multiset) in non-decreasing order; and pushing a single element into an
empty heap and then popping returns that element and leaves a heap of
length `0`. -/
theorem c3_minheap_pop_sorted {α : Type*} [LinearOrder α] [Inhabited α]
    (xs : List α) (x : α) :
    ((MinHeap.drain MinHeap.gtOf
        (xs.foldl (MinHeap.push MinHeap.gtOf) MinHeap.empty) : List α) : Multiset α)
        = (xs : Multiset α) ∧
    (MinHeap.drain MinHeap.gtOf
        (xs.foldl (MinHeap.push MinHeap.gtOf) MinHeap.empty)).Sorted (· ≤ ·) ∧
    (MinHeap.pop MinHeap.gtOf (MinHeap.push MinHeap.gtOf MinHeap.empty x)).1 = some x ∧
    MinHeap.length (MinHeap.pop MinHeap.gtOf (MinHeap.push MinHeap.gtOf MinHeap.empty x)).2
      = 0 := by
  have hempty1 : 1 ≤ (MinHeap.empty : MinHeap α).endIndex := by
    simp [MinHeap.empty]
  have hemptyInv : MinHeap.Inv (MinHeap.empty : MinHeap α).tree
      (MinHeap.empty : MinHeap α).endIndex := by
    intro j hj2 hjlt
    simp only [MinHeap.empty] at hjlt
    exact absurd hj2 (by omega)
  have hcempty : MinHeap.contents (MinHeap.empty : MinHeap α) = 0 := by
    simp [MinHeap.contents, MinHeap.msOf, MinHeap.empty]
  obtain ⟨hf1, hfinv, hfcont⟩ := MinHeap.foldl_push_spec xs MinHeap.empty hempty1 hemptyInv
  rw [hcempty, zero_add] at hfcont
  obtain ⟨hm, hs⟩ := MinHeap.drainGo_spec
    (xs.foldl (MinHeap.push MinHeap.gtOf) MinHeap.empty).endIndex
    (xs.foldl (MinHeap.push MinHeap.gtOf) MinHeap.empty) (by omega) hf1 hfinv
  have hE : (MinHeap.push MinHeap.gtOf (MinHeap.empty : MinHeap α) x).endIndex = 2 := by
    simp [MinHeap.push, MinHeap.empty]
  have hc1 := (MinHeap.push_contents (MinHeap.empty : MinHeap α) x hempty1).1
  rw [hcempty] at hc1
  have hone : MinHeap.contents (MinHeap.push MinHeap.gtOf (MinHeap.empty : MinHeap α) x)
      = {(MinHeap.push MinHeap.gtOf (MinHeap.empty : MinHeap α) x).tree 1} := by
    unfold MinHeap.contents
    rw [hE]
    simp [MinHeap.msOf, List.range']
  have htx : (MinHeap.push MinHeap.gtOf (MinHeap.empty : MinHeap α) x).tree 1 = x := by
    have hh := hone.symm.trans hc1
    rw [Multiset.cons_zero] at hh
    exact Multiset.singleton_inj.mp hh
  have hp := MinHeap.pop_contents
    (MinHeap.push MinHeap.gtOf (MinHeap.empty : MinHeap α) x) (by omega)
  refine ⟨?_, hs, ?_, ?_⟩
  · rw [MinHeap.drain, hm, hfcont]
  · rw [htx] at hp
    exact hp.1
  · unfold MinHeap.length
    rw [hp.2.1, hE]

/-- Witness for C3 at `α = ℕ`, `xs = [3, 1, 2]`, `x = 5`. -/
theorem c3_witness :
    ((MinHeap.drain MinHeap.gtOf
        (([3, 1, 2] : List ℕ).foldl (MinHeap.push MinHeap.gtOf) MinHeap.empty) : List ℕ)
          : Multiset ℕ)
        = ([3, 1, 2] : Multiset ℕ) ∧
    (MinHeap.drain MinHeap.gtOf
        (([3, 1, 2] : List ℕ).foldl (MinHeap.push MinHeap.gtOf) MinHeap.empty)).Sorted
          (· ≤ ·) ∧
    (MinHeap.pop MinHeap.gtOf (MinHeap.push MinHeap.gtOf MinHeap.empty (5 : ℕ))).1
        = some 5 ∧
    MinHeap.length
        (MinHeap.pop MinHeap.gtOf (MinHeap.push MinHeap.gtOf MinHeap.empty (5 : ℕ))).2 = 0 :=
  c3_minheap_pop_sorted [3, 1, 2] 5

/-! ### C5: `findRoute` when the open set empties -/

/-- Helper: when the search loop exhausts the open set, the reported best
candidate is one of the examined candidates (or the incoming best), its
Manhattan distance to the destination is minimal among the examined ones
and at most the incoming best's, and the trace starts with `current`. -/
theorem searchLoop_exhausted (game : AiTown) (now : ℝ) (player : PlayerDoc)
    (destination : Point) (movementSpeed : ℝ) :
    ∀ fuel current best minD heap out trace,
      searchLoop game now player destination movementSpeed fuel current best minD heap
        = some (out, trace) →
      ∀ b, out = .exhausted b →
        (∃ tl, trace = current :: tl) ∧
        (b ∈ trace ∨ b = best) ∧
        manhattanDistance b.position destination
          ≤ manhattanDistance best.position destination ∧
        (∀ c ∈ trace, manhattanDistance b.position destination
          ≤ manhattanDistance c.position destination) := by
  intro fuel
  induction fuel with
  | zero =>
    intro current best minD heap out trace h b hb
    simp [searchLoop] at h
  | succ fuel ih =>
    intro current best minD heap out trace h b hb
    unfold searchLoop at h
    by_cases hpe : pointsEqual current.position destination = true
    · rw [if_pos hpe] at h
      injection h with h'
      have h1 : LoopOutcome.reached current = out := congrArg Prod.fst h'
      rw [← h1] at hb
      exact LoopOutcome.noConfusion hb
    · rw [if_neg hpe] at h
      set best' := (if manhattanDistance current.position destination <
          manhattanDistance best.position destination then current else best) with hbd
      have hble : manhattanDistance best'.position destination
          ≤ manhattanDistance best.position destination := by
        rw [hbd]; split
        · next hlt => exact le_of_lt hlt
        · exact le_refl _
      have hbcur : manhattanDistance best'.position destination
          ≤ manhattanDistance current.position destination := by
        rw [hbd]; split
        · exact le_refl _
        · next hlt => exact le_of_not_lt hlt
      have hbmem : best' = current ∨ best' = best := by
        rw [hbd]; split
        · exact Or.inl rfl
        · exact Or.inr rfl
      simp only [] at h
      rcases hpop : MinHeap.pop candidateGt
          ((explore game now player destination movementSpeed current minD).2.foldl
            (MinHeap.push candidateGt) heap) with ⟨copt, heap2⟩
      rw [hpop] at h
      cases copt with
      | none =>
        replace h : (some ((LoopOutcome.exhausted best', [current]) :
            LoopOutcome × List PathCandidate) : Option (LoopOutcome × List PathCandidate))
              = some (out, trace) := h
        injection h with h'
        have h1 : LoopOutcome.exhausted best' = out := congrArg Prod.fst h'
        have h2 : [current] = trace := congrArg Prod.snd h'
        rw [← h1] at hb
        injection hb.symm with hbb
        rw [← h2, hbb]
        refine ⟨⟨[], rfl⟩, ?_, hble, ?_⟩
        · rcases hbmem with hh | hh
          · exact Or.inl (by rw [hh]; exact List.mem_singleton_self _)
          · exact Or.inr hh
        · intro c hc
          rw [List.mem_singleton] at hc
          rw [hc]
          exact hbcur
      | some c =>
        replace h : (searchLoop game now player destination movementSpeed fuel c best'
            (explore game now player destination movementSpeed current minD).1 heap2).map
            (fun r => (r.1, current :: r.2)) = some (out, trace) := h
        rw [Option.map_eq_some'] at h
        obtain ⟨r, hr, hf⟩ := h
        obtain ⟨rout, rtr⟩ := r
        replace hf : ((rout, current :: rtr) : LoopOutcome × List PathCandidate)
            = (out, trace) := hf
        have h1 : rout = out := congrArg Prod.fst hf
        have h2 : current :: rtr = trace := congrArg Prod.snd hf
        rw [h1] at hr
        obtain ⟨-, hmem, hminb, hall⟩ :=
          ih c best' (explore game now player destination movementSpeed current minD).1
            heap2 out rtr hr b hb
        rw [← h2]
        refine ⟨⟨rtr, rfl⟩, ?_, le_trans hminb hble, ?_⟩
        · rcases hmem with hh | hh
          · exact Or.inl (List.mem_cons_of_mem _ hh)
          · rcases hbmem with hh2 | hh2
            · exact Or.inl (by rw [hh, hh2]; exact List.mem_cons_self _ _)
            · exact Or.inr (hh.trans hh2)
        · intro c2 hc2
          rcases List.mem_cons.mp hc2 with hh | hh
          · rw [hh]
            exact le_trans hminb hbcur
          · exact hall c2 hh

/-- Helper: the last entry of the dense path built for a candidate carries
that candidate's position and time. -/
theorem densePath_getLast (c : PathCandidate) :
    (densePath c).getLast? = some ⟨c.position, c.t, c.facing.getD default⟩ := by
  cases c with
  | mk pos f t len cost prevOpt =>
    unfold densePath
    rw [List.getLast?_reverse]
    rw [densePathAux.eq_def]
    simp [PathCandidate.position, PathCandidate.t, PathCandidate.facing]

/-- C5: when `findRoute`'s open set empties before the destination is
reached, the best (minimum Manhattan distance to the destination)
candidate among the examined ones becomes the result: the returned path
ends at its position and time, `newDestination` is its position, and if
that candidate has path length `0` the result is `null`; when the
destination is reached, `newDestination` is `null`. -/
theorem c5_findroute_exhaustion (movementSpeed : ℝ) (fuel : ℕ) (game : AiTown)
    (now : ℝ) (player : PlayerDoc) (destination : Point)
    (res : Option RouteResult) (outcome : LoopOutcome) (trace : List PathCandidate)
    (h : findRouteFuelTr movementSpeed fuel game now player destination
        = some (res, outcome, trace)) :
    (∀ c, outcome = .reached c → res = some ⟨densePath c, none⟩) ∧
    (∀ best, outcome = .exhausted best →
      best ∈ trace ∧
      (∀ c ∈ trace, manhattanDistance best.position destination
        ≤ manhattanDistance c.position destination) ∧
      (best.length = (0 : ℝ) → res = none) ∧
      (¬ best.length = (0 : ℝ) →
        res = some ⟨densePath best, some best.position⟩ ∧
        (densePath best).getLast?
          = some ⟨best.position, best.t, best.facing.getD default⟩)) := by
  unfold findRouteFuelTr at h
  simp only [] at h
  rw [Option.map_eq_some'] at h
  obtain ⟨r, hr, hf⟩ := h
  obtain ⟨rout, rtr⟩ := r
  cases rout with
  | reached c0 =>
    replace hf : ((some ⟨densePath c0, none⟩ : Option RouteResult),
        LoopOutcome.reached c0, rtr) = (res, outcome, trace) := hf
    have hres : (some ⟨densePath c0, none⟩ : Option RouteResult) = res :=
      congrArg (fun p => p.1) hf
    have hout : LoopOutcome.reached c0 = outcome := congrArg (fun p => p.2.1) hf
    constructor
    · intro c hc
      rw [← hout] at hc
      injection hc with hcc
      rw [← hres, ← hcc]
    · intro bb hbb
      rw [← hout] at hbb
      exact LoopOutcome.noConfusion hbb
  | exhausted best0 =>
    replace hf : ((if best0.length = (0 : ℝ) then
        ((none : Option RouteResult), LoopOutcome.exhausted best0, rtr)
      else (some ⟨densePath best0, some best0.position⟩,
        LoopOutcome.exhausted best0, rtr))) = (res, outcome, trace) := hf
    obtain ⟨⟨tl, htl⟩, hmem, -, hall⟩ :=
      searchLoop_exhausted game now player destination movementSpeed fuel _ _ _ _
        (LoopOutcome.exhausted best0) rtr hr best0 rfl
    by_cases hlen : best0.length = (0 : ℝ)
    · rw [if_pos hlen] at hf
      have hres : (none : Option RouteResult) = res := congrArg (fun p => p.1) hf
      have hout : LoopOutcome.exhausted best0 = outcome := congrArg (fun p => p.2.1) hf
      have htr : rtr = trace := congrArg (fun p => p.2.2) hf
      constructor
      · intro c hc
        rw [← hout] at hc
        exact LoopOutcome.noConfusion hc
      · intro bb hbb
        rw [← hout] at hbb
        injection hbb with hbb'
        subst hbb'
        rw [← htr]
        refine ⟨?_, hall, fun _ => hres.symm, fun hne => absurd hlen hne⟩
        rcases hmem with hh | hh
        · exact hh
        · rw [htl, hh]
          exact List.mem_cons_self _ _
    · rw [if_neg hlen] at hf
      have hres : (some ⟨densePath best0, some best0.position⟩ : Option RouteResult) = res :=
        congrArg (fun p => p.1) hf
      have hout : LoopOutcome.exhausted best0 = outcome := congrArg (fun p => p.2.1) hf
      have htr : rtr = trace := congrArg (fun p => p.2.2) hf
      constructor
      · intro c hc
        rw [← hout] at hc
        exact LoopOutcome.noConfusion hc
      · intro bb hbb
        rw [← hout] at hbb
        injection hbb with hbb'
        subst hbb'
        rw [← htr]
        refine ⟨?_, hall, fun h0 => absurd h0 hlen,
          fun _ => ⟨hres.symm, densePath_getLast best0⟩⟩
        rcases hmem with hh | hh
        · exact hh
        · rw [htl, hh]
          exact List.mem_cons_self _ _

/-- Witness for C5: on the 1×1 map with destination `(2, 0)` outside the
map, one loop iteration exhausts the open set at the start candidate,
whose path length is `0`, so the route is `null`. -/
theorem c5_witness :
    findRouteFuelTr 1 1 c5Game 0 c5Player ⟨2, 0⟩
      = some (none, .exhausted c5Start, [c5Start]) ∧
    c5Start ∈ [c5Start] ∧
    (∀ c ∈ [c5Start], manhattanDistance c5Start.position ⟨2, 0⟩
      ≤ manhattanDistance c.position ⟨2, 0⟩) ∧
    (c5Start.length = (0 : ℝ) → (none : Option RouteResult) = none) := by
  have hexp : explore c5Game 0 c5Player ⟨2, 0⟩ 1 c5Start (fun _ => none)
      = ((fun _ => none), []) := by
    norm_num [explore, exploreNeighbors, exploreStep, c5Start, PathCandidate.position,
      blocked, blockedWithPositions, c5Game, c5Map, c5Player]
  have hsl : searchLoop c5Game 0 c5Player ⟨2, 0⟩ 1 1 c5Start c5Start (fun _ => none)
      MinHeap.empty = some (.exhausted c5Start, [c5Start]) := by
    unfold searchLoop
    rw [if_neg (by norm_num [pointsEqual, c5Start, PathCandidate.position])]
    simp only []
    rw [hexp]
    norm_num [MinHeap.pop, MinHeap.empty]
  have hfr : findRouteFuelTr 1 1 c5Game 0 c5Player ⟨2, 0⟩
      = (searchLoop c5Game 0 c5Player ⟨2, 0⟩ 1 1 c5Start c5Start (fun _ => none)
          MinHeap.empty).map
        (fun r => match r.1 with
          | .reached c => (some ⟨densePath c, none⟩, r.1, r.2)
          | .exhausted best =>
            if best.length = (0 : ℝ) then (none, r.1, r.2)
            else (some ⟨densePath best, some best.position⟩, r.1, r.2)) := rfl
  have heval : findRouteFuelTr 1 1 c5Game 0 c5Player ⟨2, 0⟩
      = some (none, .exhausted c5Start, [c5Start]) := by
    rw [hfr, hsl]
    norm_num [c5Start, PathCandidate.length]
  obtain ⟨-, h2⟩ := c5_findroute_exhaustion 1 1 c5Game 0 c5Player ⟨2, 0⟩ none
    (.exhausted c5Start) [c5Start] heval
  obtain ⟨hmem, hmin, hzero, -⟩ := h2 c5Start rfl
  exact ⟨heval, hmem, hmin, hzero⟩

/-! ### C1: at which time does the blocked test read player positions? -/

/-- Helper: `blocked` reads other players' positions only at its time
argument. -/
theorem blocked_frame (g1 g2 : AiTown) (now : ℝ)
    (hm : g1.map = g2.map) (hp : g1.players = g2.players)
    (hl : ∀ i, g1.locationsAt now i = g2.locationsAt now i) (pos : Point)
    (pid : Option ℕ) :
    blocked g1 now pos pid = blocked g2 now pos pid := by
  unfold blocked
  rw [hm, hp]
  congr 1
  apply List.map_congr_left
  intro p hp2
  simp only []
  rw [hl p.locationId]

/-- Helper: the neighbour step depends on the game only through `blocked`
at the query time. -/
theorem exploreStep_frame (g1 g2 : AiTown) (now : ℝ) (player : PlayerDoc)
    (destination : Point) (ms : ℝ) (current : PathCandidate)
    (hm : g1.map = g2.map) (hp : g1.players = g2.players)
    (hl : ∀ i, g1.locationsAt now i = g2.locationsAt now i) :
    exploreStep g1 now player destination ms current
      = exploreStep g2 now player destination ms current := by
  funext acc nb
  unfold exploreStep
  simp only []
  rw [blocked_frame g1 g2 now hm hp hl nb.1 (some player.id)]

/-- Helper: `explore` under the frame hypotheses. -/
theorem explore_frame (g1 g2 : AiTown) (now : ℝ) (player : PlayerDoc)
    (destination : Point) (ms : ℝ)
    (hm : g1.map = g2.map) (hp : g1.players = g2.players)
    (hl : ∀ i, g1.locationsAt now i = g2.locationsAt now i) :
    explore g1 now player destination ms = explore g2 now player destination ms := by
  funext current minD
  unfold explore
  rw [exploreStep_frame g1 g2 now player destination ms current hm hp hl]

/-- Helper: the search loop under the frame hypotheses. -/
theorem searchLoop_frame (g1 g2 : AiTown) (now : ℝ) (player : PlayerDoc)
    (destination : Point) (ms : ℝ)
    (hm : g1.map = g2.map) (hp : g1.players = g2.players)
    (hl : ∀ i, g1.locationsAt now i = g2.locationsAt now i) :
    ∀ fuel, searchLoop g1 now player destination ms fuel
      = searchLoop g2 now player destination ms fuel := by
  intro fuel
  induction fuel with
  | zero =>
    funext current best minD heap
    simp [searchLoop]
  | succ fuel ih =>
    funext current best minD heap
    unfold searchLoop
    simp only []
    rw [explore_frame g1 g2 now player destination ms hm hp hl, ih]

/-- C1 (amended): `findRoute` evaluates every other player's position at
the query time `now` passed to it — its result depends on the location
table only through the rows at time `now`, never at a candidate's
scheduled arrival time: two games with the same map and players whose
location tables agree at time `now` (and may differ at every other time)
produce identical results. -/
theorem c1_blocked_at_query_time (ms : ℝ) (fuel : ℕ) (g1 g2 : AiTown) (now : ℝ)
    (player : PlayerDoc) (destination : Point)
    (hm : g1.map = g2.map) (hp : g1.players = g2.players)
    (hl : ∀ i, g1.locationsAt now i = g2.locationsAt now i) :
    findRouteFuelTr ms fuel g1 now player destination
      = findRouteFuelTr ms fuel g2 now player destination := by
  unfold findRouteFuelTr
  simp only []
  rw [hl player.locationId,
    searchLoop_frame g1 g2 now player destination ms hm hp hl fuel]

/-- Witness for the amended C1: the time-varying game and its constant
query-time freeze agree at time `0`, so `findRoute` cannot tell them
apart, although their location tables differ at the arrival times. -/
theorem c1_amended_witness :
    c1Game.map = c1GameConst.map ∧ c1Game.players = c1GameConst.players ∧
    (∀ i, c1Game.locationsAt 0 i = c1GameConst.locationsAt 0 i) ∧
    c1Game.locationsAt 1000 1 ≠ c1GameConst.locationsAt 1000 1 ∧
    findRouteFuelTr 1 2 c1Game 0 c1Player ⟨1, 0⟩
      = findRouteFuelTr 1 2 c1GameConst 0 c1Player ⟨1, 0⟩ := by
  have hl : ∀ i, c1Game.locationsAt 0 i = c1GameConst.locationsAt 0 i := by
    intro i
    simp [c1Game, c1GameConst]
  refine ⟨rfl, rfl, hl, ?_, c1_blocked_at_query_time 1 2 c1Game c1GameConst 0 c1Player
    ⟨1, 0⟩ rfl rfl hl⟩
  norm_num [c1Game, c1GameConst]

/-- Helper: one step of the arrival-time search loop when the destination
is not yet reached and the heap pop succeeds. -/
theorem searchLoopArrival_step (game : AiTown) (player : PlayerDoc)
    (destination : Point) (ms : ℝ) (fuel : ℕ) (current best : PathCandidate)
    (minD : Point → Option PathCandidate) (heap : MinHeap PathCandidate)
    (hpe : ¬ pointsEqual current.position destination = true)
    (c : PathCandidate)
    (hpop : (MinHeap.pop candidateGt
      ((exploreArrival game player destination ms current minD).2.foldl
        (MinHeap.push candidateGt) heap)).1 = some c) :
    searchLoopArrival game player destination ms (fuel + 1) current best minD heap
      = searchLoopArrival game player destination ms fuel c
          (if manhattanDistance current.position destination <
              manhattanDistance best.position destination then current else best)
          (exploreArrival game player destination ms current minD).1
          (MinHeap.pop candidateGt
            ((exploreArrival game player destination ms current minD).2.foldl
              (MinHeap.push candidateGt) heap)).2 := by
  conv_lhs => unfold searchLoopArrival
  rw [if_neg hpe]
  simp only []
  rcases hp : MinHeap.pop candidateGt
      ((exploreArrival game player destination ms current minD).2.foldl
        (MinHeap.push candidateGt) heap) with ⟨copt, h2⟩
  rw [hp] at hpop
  replace hpop : copt = some c := hpop
  subst hpop
  rfl

/-- Helper: the arrival-time search loop when the current candidate is at
the destination. -/
theorem searchLoopArrival_reached (game : AiTown) (player : PlayerDoc)
    (destination : Point) (ms : ℝ) (fuel : ℕ) (current best : PathCandidate)
    (minD : Point → Option PathCandidate) (heap : MinHeap PathCandidate)
    (h : pointsEqual current.position destination = true) :
    searchLoopArrival game player destination ms (fuel + 1) current best minD heap
      = some (.reached current) := by
  unfold searchLoopArrival
  rw [if_pos h]

/-- C1 (counterexample): on the 2×1 map the obstructing player stands on
the destination tile at the query time `0` but has moved away at the
segment's scheduled arrival time; the source pathfinder, whose collision
test runs at the query time, declares the route unreachable with no
progress and returns `null`, while the specification's arrival-time
pathfinder reaches the destination. -/
theorem c1_counterexample_query_time :
    findRouteFuel 1 2 c1Game 0 c1Player ⟨1, 0⟩ = some none ∧
    (findRouteArrivalFuel 1 2 c1Game 0 c1Player ⟨1, 0⟩).map Option.isSome
      = some true := by
  have hd0 : distance ⟨1, 0⟩ ⟨1, 0⟩ < COLLISION_THRESHOLD := by
    unfold distance COLLISION_THRESHOLD
    norm_num [Real.sqrt_zero]
  have hd1 : distance ⟨0, 0⟩ ⟨1, 0⟩ = 1 := by
    unfold distance
    norm_num
  have hdq : ¬ (distance ⟨0, 1⟩ ⟨1, 0⟩ < COLLISION_THRESHOLD) := by
    unfold distance COLLISION_THRESHOLD
    push_neg
    norm_num
    rw [Real.le_sqrt (by norm_num)]
    all_goals norm_num
  constructor
  · have hexp0 : explore c1Game 0 c1Player ⟨1, 0⟩ 1 c1Start (fun _ => none)
        = ((fun _ => none), []) := by
      norm_num [explore, exploreNeighbors, exploreStep, blocked, blockedWithPositions,
        c1Game, c1Map, c1Player, c1Start, PathCandidate.position, hd0]
    have hsl0 : searchLoop c1Game 0 c1Player ⟨1, 0⟩ 1 2 c1Start c1Start (fun _ => none)
        MinHeap.empty = some (.exhausted c1Start, [c1Start]) := by
      rw [show (2 : ℕ) = 1 + 1 from rfl]
      unfold searchLoop
      rw [if_neg (by norm_num [pointsEqual, c1Start, PathCandidate.position])]
      simp only []
      rw [hexp0]
      norm_num [MinHeap.pop, MinHeap.empty]
    have hfr0 : findRouteFuelTr 1 2 c1Game 0 c1Player ⟨1, 0⟩
        = (searchLoop c1Game 0 c1Player ⟨1, 0⟩ 1 2 c1Start c1Start (fun _ => none)
            MinHeap.empty).map
          (fun r => match r.1 with
            | .reached c => (some ⟨densePath c, none⟩, r.1, r.2)
            | .exhausted best =>
              if best.length = (0 : ℝ) then (none, r.1, r.2)
              else (some ⟨densePath best, some best.position⟩, r.1, r.2)) := rfl
    unfold findRouteFuel
    rw [hfr0, hsl0]
    norm_num [c1Start, PathCandidate.length]
  · have hexpA : exploreArrival c1Game c1Player ⟨1, 0⟩ 1 c1Start (fun _ => none)
        = ((fun p => if p = (⟨1, 0⟩ : Point) then some c1Cand else none), [c1Cand]) := by
      norm_num [exploreArrival, exploreNeighbors, exploreStepArrival, blocked,
        blockedWithPositions, c1Game, c1Map, c1Player, c1Start, c1Cand,
        PathCandidate.position, PathCandidate.t, PathCandidate.length,
        PathCandidate.cost, hd1, hdq, manhattanDistance]
    have hpp1 : (MinHeap.pop candidateGt
        ((exploreArrival c1Game c1Player ⟨1, 0⟩ 1 c1Start (fun _ => none)).2.foldl
          (MinHeap.push candidateGt) MinHeap.empty)).1 = some c1Cand := by
      rw [hexpA]
      simp only [List.foldl_cons, List.foldl_nil]
      unfold MinHeap.push
      rw [MinHeap.pushLoop]
      unfold MinHeap.pop
      norm_num [MinHeap.empty, HeapWrite]
    have hslA : searchLoopArrival c1Game c1Player ⟨1, 0⟩ 1 2 c1Start c1Start
        (fun _ => none) MinHeap.empty = some (.reached c1Cand) := by
      rw [show (2 : ℕ) = 1 + 1 from rfl]
      rw [searchLoopArrival_step c1Game c1Player ⟨1, 0⟩ 1 1 c1Start c1Start
        (fun _ => none) MinHeap.empty
        (by norm_num [pointsEqual, c1Start, PathCandidate.position]) c1Cand hpp1]
      rw [show (1 : ℕ) = 0 + 1 from rfl]
      exact searchLoopArrival_reached c1Game c1Player ⟨1, 0⟩ 1 0 c1Cand _ _ _
        (by norm_num [pointsEqual, c1Cand, PathCandidate.position])
    have hfrA : findRouteArrivalFuel 1 2 c1Game 0 c1Player ⟨1, 0⟩
        = (searchLoopArrival c1Game c1Player ⟨1, 0⟩ 1 2 c1Start c1Start (fun _ => none)
            MinHeap.empty).map
          (fun outcome => match outcome with
            | .reached c => some ⟨densePath c, none⟩
            | .exhausted best =>
              if best.length = (0 : ℝ) then none
              else some ⟨densePath best, some best.position⟩) := rfl
    rw [hfrA, hslA]
    simp
